import Mathlib

/-!
Verification development for the document-generation pipeline of the
repository (document_processor.py, font_manager.py, pdf_queue_processor.py,
google_docs_pdf_generator.py, pdf_generator_no_copy.py).

Python strings are embedded as `List Char`.  Placeholders are the literal
character sequence open-brace open-brace name close-brace close-brace; the
brace characters are written via their codes to keep them out of string
literals.
-/

set_option maxHeartbeats 1000000

/-- The open-brace character. -/
def lbrace : Char := '\x7b'

/-- The close-brace character. -/
def rbrace : Char := '\x7d'

/-- Convert a Lean string literal to the `List Char` embedding of Python strings. -/
def s2l (s : String) : List Char := s.toList

/-- Concatenation of a list of lists (used to model joining run texts and
flattening nested document structure). -/
def listJoin {α : Type} : List (List α) → List α
  | [] => []
  | x :: xs => x ++ listJoin xs

/-- Boolean list-prefix test on characters (the scanning primitive behind
Python `in` and `str.replace`). -/
def isPre : List Char → List Char → Bool
  | [], _ => true
  | _ :: _, [] => false
  | a :: as, b :: bs => if a = b then isPre as bs else false

/-- Fuel-driven worker for `pyReplace`; the fuel dominates the length of the
scanned string, so the fuel-exhausted branch is never taken when called
through `pyReplace`. -/
def pyReplaceF (pat val : List Char) : Nat → List Char → List Char
  | _, [] => []
  | 0, s => s
  | fuel + 1, c :: rest =>
    if pat ≠ [] ∧ isPre pat (c :: rest) = true then
      val ++ pyReplaceF pat val fuel (List.drop (pat.length - 1) rest)
    else
      c :: pyReplaceF pat val fuel rest

/-- Python `str.replace(pat, val)`: scan left to right, replace each
non-overlapping occurrence of `pat` by `val`.  The repository only calls
`replace` with patterns of the form open-brace open-brace name close-brace
close-brace, which are never empty, so the empty pattern is treated as a
non-match. -/
def pyReplace (pat val : List Char) (s : List Char) : List Char :=
  pyReplaceF pat val s.length s

/-- Python `pat in s`: does `pat` occur as a contiguous substring of `s`? -/
def occursIn (pat : List Char) : List Char → Bool
  | [] => isPre pat []
  | c :: rest => isPre pat (c :: rest) || occursIn pat rest

/-- The placeholder pattern built by the f-string
`f'(four open braces)(name)(four close braces)'` in the source: two literal
open braces, the name, two literal close braces. -/
def phPat (k : List Char) : List Char := lbrace :: lbrace :: (k ++ [rbrace, rbrace])

/-- A string with no brace characters at all. -/
def braceFreeB (s : List Char) : Bool :=
  s.all (fun c => !(c = lbrace : Bool) && !(c = rbrace : Bool))

/-- Specification-side view of a paragraph text: an interleaving of literal
chunks and placeholder tokens.  Used only in hypotheses and conclusions of
theorems about the Replacement Engine; the engine itself works on raw
character lists. -/
inductive Seg : Type
  | lit (s : List Char)
  | tok (name : List Char)
deriving DecidableEq

/-- Render a segment back to its raw text. -/
def renderSeg : Seg → List Char
  | Seg.lit s => s
  | Seg.tok k => phPat k

/-- Render a segment list to raw text. -/
def renderSegs (S : List Seg) : List Char := listJoin (S.map renderSeg)

/-- Well-formedness of one segment: literal chunks are brace-free, token
names are brace-free and nonempty. -/
def wfSegB : Seg → Bool
  | Seg.lit s => braceFreeB s
  | Seg.tok k => braceFreeB k && !k.isEmpty

/-- Well-formedness of a segment list. -/
def wfSegsB (S : List Seg) : Bool := S.all wfSegB

/-- Substituting one mapped token: a token whose name equals the key becomes
the literal replacement value; everything else is unchanged. -/
def substTok (k v : List Char) : Seg → Seg
  | Seg.lit s => Seg.lit s
  | Seg.tok j => if j = k then Seg.lit v else Seg.tok j

/-- Applying a whole replacement map to the segment view, key by key, in
map order. -/
def applySubsts (R : List (List Char × List Char)) (S : List Seg) : List Seg :=
  R.foldl (fun T kv => T.map (substTok kv.1 kv.2)) S

/-- Formatting attributes collected from a run in
`_replace_placeholders_in_paragraph` (runs_data): tri-state toggles are
`Option Bool`; font name is an optional string; size, color and highlight
are optional numeric codes.  A stored `some 0` size/color/highlight and a
stored `some []` font name model Python-falsy stored values. -/
structure RunProps where
  bold : Option Bool
  italic : Option Bool
  underline : Option Bool
  fontName : Option (List Char)
  fontSize : Option Nat
  fontColor : Option Nat
  highlight : Option Nat
deriving DecidableEq

/-- A formatting run: its text and its collected attributes. -/
structure Run where
  text : List Char
  props : RunProps
deriving DecidableEq

/-- A paragraph is its list of runs. -/
abbrev Para : Type := List Run

/-- Attributes of a freshly added run (everything unset). -/
def noProps : RunProps := ⟨none, none, none, none, none, none, none⟩

/-- Python truthiness of an optional string. -/
def truthyS : Option (List Char) → Bool
  | some s => !s.isEmpty
  | none => false

/-- Python truthiness of an optional number. -/
def truthyN : Option Nat → Bool
  | some n => !(n = 0 : Bool)
  | none => false

/-- The attribute transfer in `_replace_placeholders_in_paragraph`: the new
run starts with `noProps`; bold/italic/underline are copied whenever they
are not `None`, the remaining attributes only when truthy. -/
def adoptProps (f : RunProps) : RunProps :=
  ⟨f.bold, f.italic, f.underline,
   if truthyS f.fontName then f.fontName else none,
   if truthyN f.fontSize then f.fontSize else none,
   if truthyN f.fontColor then f.fontColor else none,
   if truthyN f.highlight then f.highlight else none⟩

/-- `paragraph.text`: the concatenation of the texts of all runs. -/
def paragraphText (p : Para) : List Char := listJoin (p.map Run.text)

/-- The placeholder test loop of `_replace_placeholders_in_paragraph`: some
mapped key's pattern occurs in the text. -/
def hasMappedPattern (R : List (List Char × List Char)) (s : List Char) : Bool :=
  R.any (fun kv => occursIn (phPat kv.1) s)

/-- The replacement loop: `full_text.replace(pattern, value)` for every
(placeholder, value) item of the map, in map order. -/
def replaceAllMap (R : List (List Char × List Char)) (s : List Char) : List Char :=
  R.foldl (fun t kv => pyReplace (phPat kv.1) kv.2 t) s

/-- `_replace_placeholders_in_paragraph`: if no mapped placeholder occurs in
the paragraph text, return the paragraph untouched; otherwise clear the
paragraph and add a single run carrying the fully substituted text, with the
first original run's attributes transferred via `adoptProps` (or no
attributes when the paragraph had no runs). -/
def replacePlaceholdersInParagraph (R : List (List Char × List Char)) (p : Para) : Para :=
  if hasMappedPattern R (paragraphText p) = false then p
  else
    match p with
    | [] => [⟨replaceAllMap R (paragraphText p), noProps⟩]
    | r :: _ => [⟨replaceAllMap R (paragraphText p), adoptProps r.props⟩]

/-- A table cell: its paragraphs. -/
abbrev Cell : Type := List Para

/-- A table row: its cells. -/
abbrev Rowt : Type := List Cell

/-- A table: its rows. -/
abbrev Tablet : Type := List Rowt

/-- A section: header paragraphs and footer paragraphs. -/
structure Sectiont where
  header : List Para
  footer : List Para
deriving DecidableEq

/-- A document: body paragraphs, tables, sections. -/
structure Doc where
  paragraphs : List Para
  tables : List Tablet
  sections : List Sectiont
deriving DecidableEq

/-- `process_docx_template`: apply `_replace_placeholders_in_paragraph` to
every body paragraph, every paragraph of every table cell, and every header
and footer paragraph of every section.  (The initial
`_detect_placeholders_in_docx` call in the source only feeds a log line and
does not affect the result.) -/
def processDocxTemplate (R : List (List Char × List Char)) (d : Doc) : Doc :=
  ⟨d.paragraphs.map (replacePlaceholdersInParagraph R),
   d.tables.map (fun t => t.map (fun row => row.map
     (fun cell => cell.map (replacePlaceholdersInParagraph R)))),
   d.sections.map (fun s => ⟨s.header.map (replacePlaceholdersInParagraph R),
                             s.footer.map (replacePlaceholdersInParagraph R)⟩)⟩

/-- All paragraphs of a document in processing/traversal order: body
paragraphs, then table paragraphs (row-major, then cell-major), then, per
section, header paragraphs followed by footer paragraphs. -/
def docParagraphs (d : Doc) : List Para :=
  d.paragraphs
    ++ listJoin (listJoin (listJoin d.tables))
    ++ listJoin (d.sections.map (fun s => s.header ++ s.footer))

/-- The concatenation of all paragraph texts of a document, in traversal
order (an observable for occurrence statements). -/
def docAllText (d : Doc) : List Char := listJoin ((docParagraphs d).map paragraphText)

/-- `re.findall` of the placeholder regex (open-brace open-brace, one or
more non-close-brace characters, close-brace close-brace) on a text: scan
left to right; at a position starting with two open braces take the maximal
run of non-close-brace characters; the position matches when that run is
nonempty and is followed by two close braces; matches do not overlap. -/
def findNamesF : Nat → List Char → List (List Char)
  | _, [] => []
  | _, [_] => []
  | 0, _ => []
  | fuel + 1, c :: c2 :: rest2 =>
    if c = lbrace ∧ c2 = lbrace then
      let nm := rest2.takeWhile (fun x => !(x = rbrace : Bool))
      let rem := rest2.drop nm.length
      if nm ≠ [] ∧ rem.take 2 = [rbrace, rbrace] then
        nm :: findNamesF fuel (rem.drop 2)
      else
        findNamesF fuel (c2 :: rest2)
    else
      findNamesF fuel (c2 :: rest2)

def findNames (s : List Char) : List (List Char) := findNamesF s.length s

/-- The scanner traversal of `_detect_placeholders_in_docx`: names found in
body paragraphs, then table paragraphs, then per section header then footer
paragraphs, in document order (with multiplicity, before the set collapse). -/
def docFoundNames (d : Doc) : List (List Char) :=
  listJoin ((docParagraphs d).map (fun p => findNames (paragraphText p)))

/-- `_detect_placeholders_in_docx`: the Python `set` of all names found by
the traversal.  A Python set keeps only membership, so the embedding is the
finite set of the traversal list. -/
def detectPlaceholdersInDocx (d : Doc) : Finset (List Char) :=
  (docFoundNames d).toFinset

/-- First-seen-order deduplication of a list (the order the spec claims the
scanner reports). -/
def firstSeenGo (seen : List (List Char)) : List (List Char) → List (List Char)
  | [] => []
  | x :: xs => if x ∈ seen then firstSeenGo seen xs else x :: firstSeenGo (x :: seen) xs

/-- First-seen-order deduplication, starting from nothing seen. -/
def firstSeen (l : List (List Char)) : List (List Char) := firstSeenGo [] l

/-- The weight/style words stripped by the font-name regexes, lowercase. -/
def sfxWords : List (List Char) :=
  [s2l ("regular"), s2l ("bold"), s2l ("italic"), s2l ("light"),
   s2l ("medium"), s2l ("heavy"), s2l ("black"), s2l ("thin")]

/-- Lowercase a string (Python `str.lower` restricted to the ASCII names the
registry handles). -/
def lowerStr (s : List Char) : List Char := s.map Char.toLower

/-- Does `s` end with `p`? -/
def endsW (s p : List Char) : Bool := isPre p.reverse s.reverse

/-- `os.path.splitext(...)[0]`: the filename up to its last dot (the
registry only applies this to names such as `X.ttf`; the Python corner case
of a lone leading dot is not exercised by it). -/
def dropExt (s : List Char) : List Char :=
  if s.contains '.' then
    (s.reverse.drop ((s.reverse.takeWhile (fun c => !(c = '.' : Bool))).length + 1)).reverse
  else s

/-- The `re.sub` of `_get_font_name_from_file`: remove one trailing
`-Word` or `_Word` (case-insensitive) where Word is a weight/style word.
At most one such tail can match, so a first-match scan over the sixteen
candidates is equivalent. -/
def tryStrip (s : List Char) : List Char :=
  let ls := lowerStr s
  let cands := (sfxWords.map (fun w => '-' :: w)) ++ (sfxWords.map (fun w => '_' :: w))
  match cands.find? (fun c => endsW ls c) with
  | some c => s.take (s.length - c.length)
  | none => s

/-- `_get_font_name_from_file`: strip the extension, then strip one
weight/style tail. -/
def fontNameFromFile (filename : List Char) : List Char := tryStrip (dropExt filename)

/-- The whitespace/hyphen/underscore characters removed by
`re.sub(r'[\s\-_]+', '', ...)`. -/
def sepChars : List Char := [' ', '\t', '\n', '\r', '\x0b', '\x0c', '-', '_']

/-- The suffix patterns removed inside `_normalize_font_name`, in the order
the Python loop applies them: for each weight word, hyphen-word, then
underscore-word, then space-word. -/
def normPats : List (List Char) :=
  listJoin (sfxWords.map (fun w => [('-' :: w), ('_' :: w), (' ' :: w)]))

/-- `_normalize_font_name`: empty stays empty; otherwise lowercase, delete
every occurrence of each suffix pattern (via `str.replace`), then delete all
whitespace/hyphen/underscore characters. -/
def normalizeFontName (s : List Char) : List Char :=
  if s.isEmpty then []
  else
    let low := lowerStr s
    let stripped := normPats.foldl (fun t p => pyReplace p [] t) low
    stripped.filter (fun c => !(sepChars.contains c))

/-- The state a `FontManager` carries: the set of registered font names
(modelled as a list in some iteration order; only first-match selection and
membership are used) and the font files present in the font directory, in
directory-listing order. -/
structure FontMgr where
  registeredFonts : List (List Char)
  fontFiles : List (List Char)
deriving DecidableEq

/-- The `.ttf`/`.otf` filename filter. -/
def isFontFile (f : List Char) : Bool :=
  endsW (lowerStr f) (s2l (".ttf")) || endsW (lowerStr f) (s2l (".otf"))

/-- `is_font_available`: falsy names are unavailable; otherwise the first
registered font with the same normalized name wins, else the first font file
in the directory whose derived name normalizes equally, else unavailable.
Returns the matched registered name or matched filename. -/
def isFontAvailable (fm : FontMgr) (fontName : List Char) : Bool × Option (List Char) :=
  if fontName.isEmpty then (false, none)
  else
    let n := normalizeFontName fontName
    match fm.registeredFonts.find? (fun r => normalizeFontName r = n) with
    | some r => (true, some r)
    | none =>
      match fm.fontFiles.find?
          (fun f => isFontFile f && (normalizeFontName (fontNameFromFile f) = n : Bool)) with
      | some f => (true, some f)
      | none => (false, none)

/-- The ordered Persian/Arabic fallback families of `get_font_for_pdf`. -/
def persianFallbacks : List (List Char) :=
  [s2l ("Vazir"), s2l ("IRANSans"), s2l ("B Nazanin"), s2l ("B Mitra")]

/-- The fallback loop of `get_font_for_pdf`: first available fallback wins;
otherwise the ReportLab default font name. -/
def resolveFallbacks (fm : FontMgr) : List (List Char) → List Char
  | [] => s2l ("Helvetica")
  | fb :: rest =>
    match isFontAvailable fm fb with
    | (true, some m) => if m.isEmpty then fb else fontNameFromFile m
    | (true, none) => fb
    | (false, _) => resolveFallbacks fm rest

/-- `get_font_for_pdf`: if the requested font is available return the
canonical name derived from the match (or the request itself when the match
is falsy); otherwise run the fallback chain. -/
def getFontForPdf (fm : FontMgr) (requested : List Char) : List Char :=
  match isFontAvailable fm requested with
  | (true, some m) => if m.isEmpty then requested else fontNameFromFile m
  | (true, none) => requested
  | (false, _) => resolveFallbacks fm persianFallbacks

/-- The ReportLab built-in font the final fallback resolves to; built-ins
are always loadable without registration. -/
def builtinPdfFonts : List (List Char) := [s2l ("Helvetica")]

/-- A font name is loadable by the PDF backend when it was registered with
it or is a built-in. -/
def loadableFont (fm : FontMgr) (n : List Char) : Prop :=
  n ∈ fm.registeredFonts ∨ n ∈ builtinPdfFonts

instance (fm : FontMgr) (n : List Char) : Decidable (loadableFont fm n) :=
  instDecidableOr

/-- The `ProcessingStatus` enum. -/
inductive ProcStatus : Type
  | pending
  | processing
  | completed
  | failed
deriving DecidableEq

/-- Outcome of one `generate_pdf_for_service_request` invocation: either a
filename, or the exception text (a `None` return raises and is therefore an
`err` with the corresponding message). -/
inductive AttemptOutcome : Type
  | ok (file : List Char)
  | err (msg : List Char)

/-- Which PDF-producing entry point the worker invokes.
`googleDocsPdf` is `generate_pdf_for_service_request` (the structured
Google-Docs render); `fallbackPdf` is `generate_pdf_fallback` (the
simplified/pass-through strategies in pdf_generator_no_copy.py). -/
inductive GenCall : Type
  | googleDocsPdf
  | fallbackPdf
deriving DecidableEq

/-- Observable outcome of `_process_task`: final task fields, the number of
generation attempts made, the number of `time.sleep(retry_delay)` calls
(one between consecutive attempts), and the generator invocations issued. -/
structure ProcOut where
  status : ProcStatus
  result : Option (List Char)
  error : Option (List Char)
  attempts : Nat
  sleeps : Nat
  calls : List GenCall
deriving DecidableEq

/-- The retry loop of `_process_task`, indexed by the number of attempts
still allowed after the current one (`left = maxRetries - retries`, so the
loop guard `retries + 1 <= maxRetries` is exactly `left >= 1`): attempt
`outcomes retries`; on success mark completed; on failure either sleep the
fixed retry delay and loop, or — when no attempts remain — mark failed with
that last error.  Each attempt invokes `generate_pdf_for_service_request`
and nothing else. -/
def processTaskGo (outcomes : Nat → AttemptOutcome) : Nat → Nat → ProcOut
  | 0, retries =>
    match outcomes retries with
    | AttemptOutcome.ok f =>
      ⟨ProcStatus.completed, some f, none, 1, 0, [GenCall.googleDocsPdf]⟩
    | AttemptOutcome.err m =>
      ⟨ProcStatus.failed, none, some m, 1, 0, [GenCall.googleDocsPdf]⟩
  | left + 1, retries =>
    match outcomes retries with
    | AttemptOutcome.ok f =>
      ⟨ProcStatus.completed, some f, none, 1, 0, [GenCall.googleDocsPdf]⟩
    | AttemptOutcome.err _ =>
      let rest := processTaskGo outcomes left (retries + 1)
      ⟨rest.status, rest.result, rest.error, rest.attempts + 1, rest.sleeps + 1,
       GenCall.googleDocsPdf :: rest.calls⟩

/-- `_process_task` starting from zero recorded failures with `maxRetries`
retries allowed beyond the first attempt. -/
def processTask (outcomes : Nat → AttemptOutcome) (maxRetries : Nat) : ProcOut :=
  processTaskGo outcomes maxRetries 0

/-- Decimal digit character. -/
def digitChar : Nat → Char
  | 0 => '0'
  | 1 => '1'
  | 2 => '2'
  | 3 => '3'
  | 4 => '4'
  | 5 => '5'
  | 6 => '6'
  | 7 => '7'
  | 8 => '8'
  | 9 => '9'
  | _ => '0'

/-- Fuel-driven worker for `natToDec`; the fuel dominates the value. -/
def natToDecF : Nat → Nat → List Char
  | 0, n => [digitChar n]
  | fuel + 1, n =>
    if n < 10 then [digitChar n]
    else natToDecF fuel (n / 10) ++ [digitChar (n % 10)]

/-- Decimal representation of a natural number, most significant digit
first (the rendering of `int(time.time())` inside the task-id f-string). -/
def natToDec (n : Nat) : List Char := natToDecF n n

/-- Value of a digit string (for the round-trip proof). -/
def decVal (ds : List Char) : Nat :=
  ds.foldl (fun a c => a * 10 + (c.toNat - 48)) 0

/-- The task id of `add_task`:
`f'pdf_task_(tracking_code)_(int(time.time()))'`. -/
def mkTaskId (tracking : List Char) (nowSecs : Nat) : List Char :=
  s2l ("pdf_task_") ++ tracking ++ '_' :: natToDec nowSecs

/-- Task object fields mutated by the worker. -/
structure TaskObj where
  status : ProcStatus
  result : Option (List Char)
  error : Option (List Char)
deriving DecidableEq

/-- Association-list lookup (Python `dict.get` / `dict[...]` read). -/
def assocGet {α β : Type} [DecidableEq α] : List (α × β) → α → Option β
  | [], _ => none
  | (k, v) :: rest, key => if key = k then some v else assocGet rest key

/-- Association-list store (Python `dict[...] = ...`: overwrite in place,
else append). -/
def assocSet {α β : Type} [DecidableEq α] : List (α × β) → α → β → List (α × β)
  | [], key, v => [(key, v)]
  | (k, w) :: rest, key, v =>
    if key = k then (k, v) :: rest else (k, w) :: assocSet rest key v

/-- The processor's shared state: a heap of task objects addressed by
object identity, an allocator counter, and the `tasks` dict mapping task ids
to references into the heap.  Returning a task from a method returns such a
reference, exactly as returning a Python object returns a pointer to the
shared, mutable object. -/
structure QueueState where
  heap : List (Nat × TaskObj)
  nextRef : Nat
  tasks : List (List Char × Nat)
deriving DecidableEq

/-- A freshly constructed `PDFTask`. -/
def newTaskObj : TaskObj := ⟨ProcStatus.pending, none, none⟩

/-- `add_task`: build the id from the tracking code and the current
wall-clock second, allocate the task object, store the reference in the
`tasks` dict (overwriting any existing entry with the same id), and return
the id. -/
def addTask (q : QueueState) (tracking : List Char) (nowSecs : Nat) :
    List Char × QueueState :=
  let tid := mkTaskId tracking nowSecs
  (tid, ⟨q.heap ++ [(q.nextRef, newTaskObj)], q.nextRef + 1, assocSet q.tasks tid q.nextRef⟩)

/-- `get_task_status`: `self.tasks.get(task_id)` — the stored live object
reference, not a copy. -/
def getTaskStatus (q : QueueState) (tid : List Char) : Option Nat :=
  assocGet q.tasks tid

/-- Read a task object through a reference. -/
def derefTask (q : QueueState) (r : Nat) : Option TaskObj := assocGet q.heap r

/-- A worker mutation `task.status = st` performed on the object behind
reference `r`. -/
def setTaskStatus (q : QueueState) (r : Nat) (st : ProcStatus) : QueueState :=
  ⟨q.heap.map (fun p => match p with
      | (k, o) => if k = r then (k, ⟨st, o.result, o.error⟩) else (k, o)),
   q.nextRef, q.tasks⟩

/-- A placeholder found by `_find_placeholders_with_positions`: the name and
the raw text (name wrapped in double braces).  Positions are irrelevant to
the replacement/restoration requests. -/
structure GPlaceholder where
  name : List Char
  text : List Char
deriving DecidableEq

/-- The replacement-value lookup shared by `_create_replacement_requests`
and `_create_restoration_requests`: try the bare name, then the raw
staged text, else no replacement. -/
def lookupReplacement (R : List (List Char × List Char)) (p : GPlaceholder) :
    Option (List Char) :=
  match assocGet R p.name with
  | some v => some v
  | none => assocGet R p.text

/-- A Google Docs `replaceAllText` batch-update request. -/
inductive GReq : Type
  | replaceAllText (find repl : List Char)
deriving DecidableEq

/-- `_create_replacement_requests`: one request per placeholder that has a
mapping, replacing its raw text by the value. -/
def createReplacementRequests (ps : List GPlaceholder)
    (R : List (List Char × List Char)) : List GReq :=
  ps.filterMap (fun p => (lookupReplacement R p).map
    (fun v => GReq.replaceAllText p.text v))

/-- The dedup key `f'(value)||(placeholder_text)'` of
`_create_restoration_requests`. -/
def restoKey (v t : List Char) : List Char := v ++ '|' :: '|' :: t

/-- The loop of `_create_restoration_requests` with its `processed_replacements`
set (modelled as the list of keys added so far). -/
def restoGo (R : List (List Char × List Char)) (seen : List (List Char)) :
    List GPlaceholder → List GReq
  | [] => []
  | p :: rest =>
    match lookupReplacement R p with
    | none => restoGo R seen rest
    | some v =>
      if seen.contains (restoKey v p.text) then restoGo R seen rest
      else GReq.replaceAllText v p.text :: restoGo R (restoKey v p.text :: seen) rest

/-- `_create_restoration_requests`: value-to-placeholder requests, deduped
by (value, placeholder text). -/
def createRestorationRequests (ps : List GPlaceholder)
    (R : List (List Char × List Char)) : List GReq :=
  restoGo R [] ps

/-- Externally visible calls made by `generate_pdf_with_replacements`,
in order. -/
inductive GEvent : Type
  | getDocument
  | applyReplacements (reqs : List GReq)
  | sleepBeforeExport
  | exportPdf
  | savePdf
  | sleepBeforeRestore
  | restorePlaceholders (reqs : List GReq)
deriving DecidableEq

/-- Fault injection for the external calls: which call (if any) raises
first.  A failing restoration call is re-attempted by the outer handler and
its own failure is swallowed, so no further distinction is needed. -/
inductive GFail : Type
  | noFailure
  | atGetDocument
  | atApplyReplacements
  | atExportPdf
  | atSavePdf
  | atRestore
deriving DecidableEq

/-- `generate_pdf_with_replacements` over a document whose discovered
placeholders are `ps`, with replacement dict `R`, under fault `fail`:
returns the boolean result and the trace of external calls.
Mirrors the source: `original_state_saved` becomes true only after the
replacement batch update returns; every exception path restores only when
it is true; the restoration requests are recomputed in the handler. -/
def generatePdfWithReplacements (ps : List GPlaceholder)
    (R : List (List Char × List Char)) (fail : GFail) : Bool × List GEvent :=
  if fail = GFail.atGetDocument then (false, [GEvent.getDocument])
  else
    let reps := createReplacementRequests ps R
    let resto := createRestorationRequests ps R
    if reps.isEmpty then
      -- no replacement batch: original_state_saved stays false, no restore
      if fail = GFail.atExportPdf then (false, [GEvent.getDocument, GEvent.exportPdf])
      else if fail = GFail.atSavePdf then
        (false, [GEvent.getDocument, GEvent.exportPdf, GEvent.savePdf])
      else (true, [GEvent.getDocument, GEvent.exportPdf, GEvent.savePdf])
    else
      if fail = GFail.atApplyReplacements then
        (false, [GEvent.getDocument, GEvent.applyReplacements reps])
      else
        if fail = GFail.atExportPdf then
          (false, [GEvent.getDocument, GEvent.applyReplacements reps,
                   GEvent.sleepBeforeExport, GEvent.exportPdf]
            ++ (if resto.isEmpty then [] else [GEvent.restorePlaceholders resto]))
        else if fail = GFail.atSavePdf then
          (false, [GEvent.getDocument, GEvent.applyReplacements reps,
                   GEvent.sleepBeforeExport, GEvent.exportPdf, GEvent.savePdf]
            ++ (if resto.isEmpty then [] else [GEvent.restorePlaceholders resto]))
        else
          let base := [GEvent.getDocument, GEvent.applyReplacements reps,
                       GEvent.sleepBeforeExport, GEvent.exportPdf, GEvent.savePdf,
                       GEvent.sleepBeforeRestore]
          if resto.isEmpty then (true, base)
          else if fail = GFail.atRestore then
            (false, base ++ [GEvent.restorePlaceholders resto,
                             GEvent.restorePlaceholders resto])
          else (true, base ++ [GEvent.restorePlaceholders resto])

/-- Concrete witness document for the Replacement Engine theorems: one body
paragraph `Name: (name token)` and one table cell `(date token)`. -/
def wDocC1 : Doc :=
  ⟨[[⟨s2l ("Name: ") ++ phPat (s2l ("name")), noProps⟩]],
   [[[[[⟨phPat (s2l ("date")), noProps⟩]]]]],
   []⟩

/-- Concrete witness replacement map: name and date. -/
def wMapC1 : List (List Char × List Char) :=
  [(s2l ("name"), s2l ("Ali")), (s2l ("date"), s2l ("1402/01/01"))]

/-- Segment views of the two witness paragraphs. -/
def wSegsC1 : Para → List Seg := fun p =>
  if p = [⟨s2l ("Name: ") ++ phPat (s2l ("name")), noProps⟩] then
    [Seg.lit (s2l ("Name: ")), Seg.tok (s2l ("name"))]
  else [Seg.tok (s2l ("date"))]

theorem isPre_nil (s : List Char) : isPre [] s = true := by
  cases s <;> rfl

theorem isPre_cons_nil (a : Char) (p : List Char) : isPre (a :: p) [] = false := rfl

theorem isPre_cons_cons (a b : Char) (p s : List Char) :
    isPre (a :: p) (b :: s) = if a = b then isPre p s else false := rfl

theorem isPre_head_ne {a b : Char} (p s : List Char) (h : a ≠ b) :
    isPre (a :: p) (b :: s) = false := by
  simp [isPre_cons_cons, h]

theorem isPre_self_append (p t : List Char) : isPre p (p ++ t) = true := by
  induction p with
  | nil => simp [isPre_nil]
  | cons a as ih => simp [isPre_cons_cons, ih]

theorem pyReplaceF_fuel (pat val : List Char) :
    ∀ fuel1 fuel2 s, s.length ≤ fuel1 → s.length ≤ fuel2 →
      pyReplaceF pat val fuel1 s = pyReplaceF pat val fuel2 s := by
  intro fuel1
  induction fuel1 with
  | zero =>
    intro fuel2 s h1 _
    have : s = [] := List.eq_nil_of_length_eq_zero (by omega)
    subst this
    cases fuel2 <;> rfl
  | succ f1 ih =>
    intro fuel2 s h1 h2
    cases s with
    | nil => cases fuel2 <;> rfl
    | cons c rest =>
      cases fuel2 with
      | zero => simp at h2
      | succ f2 =>
        simp only [pyReplaceF]
        by_cases hc : pat ≠ [] ∧ isPre pat (c :: rest) = true
        · rw [if_pos hc, if_pos hc]
          have hd : (List.drop (pat.length - 1) rest).length ≤ f1 := by
            rw [List.length_drop]
            simp only [List.length_cons] at h1
            omega
          have hd2 : (List.drop (pat.length - 1) rest).length ≤ f2 := by
            rw [List.length_drop]
            simp only [List.length_cons] at h2
            omega
          rw [ih f2 _ hd hd2]
        · rw [if_neg hc, if_neg hc]
          have hr : rest.length ≤ f1 := by
            simp only [List.length_cons] at h1
            omega
          have hr2 : rest.length ≤ f2 := by
            simp only [List.length_cons] at h2
            omega
          rw [ih f2 rest hr hr2]

theorem pyReplace_nil (pat val : List Char) : pyReplace pat val [] = [] := rfl

theorem pyReplace_pos (pat val : List Char) (c : Char) (rest : List Char)
    (h0 : pat ≠ []) (h : isPre pat (c :: rest) = true) :
    pyReplace pat val (c :: rest) =
      val ++ pyReplace pat val (List.drop (pat.length - 1) rest) := by
  show pyReplaceF pat val (c :: rest).length (c :: rest) = _
  simp only [List.length_cons, pyReplaceF, if_pos (And.intro h0 h)]
  rw [pyReplaceF_fuel pat val rest.length (List.drop (pat.length - 1) rest).length
    (List.drop (pat.length - 1) rest) (by rw [List.length_drop]; omega) (le_refl _)]
  rfl

theorem pyReplace_neg (pat val : List Char) (c : Char) (rest : List Char)
    (h : isPre pat (c :: rest) = false) :
    pyReplace pat val (c :: rest) = c :: pyReplace pat val rest := by
  show pyReplaceF pat val (c :: rest).length (c :: rest) = _
  have hc : ¬ (pat ≠ [] ∧ isPre pat (c :: rest) = true) := by
    intro hcon
    rw [h] at hcon
    exact absurd hcon.2 (by decide)
  simp only [List.length_cons, pyReplaceF, if_neg hc]
  rfl

theorem occursIn_cons (pat : List Char) (c : Char) (rest : List Char) :
    occursIn pat (c :: rest) = (isPre pat (c :: rest) || occursIn pat rest) := rfl

theorem occursIn_phPat_nil (k : List Char) : occursIn (phPat k) [] = false := rfl

theorem occursIn_append_right (pat s t : List Char) (h : occursIn pat t = true) :
    occursIn pat (s ++ t) = true := by
  induction s with
  | nil => simpa using h
  | cons c cs ih => simp [occursIn_cons, ih]

theorem occursIn_self_append (k t : List Char) :
    occursIn (phPat k) (phPat k ++ t) = true := by
  have h1 : phPat k ++ t = lbrace :: (lbrace :: (k ++ [rbrace, rbrace]) ++ t) := by
    simp [phPat]
  rw [h1, occursIn_cons, ← h1, isPre_self_append]
  simp

theorem pyReplace_skip_run (k v : List Char) :
    ∀ s t : List Char, (∀ c ∈ s, c ≠ lbrace) →
      pyReplace (phPat k) v (s ++ t) = s ++ pyReplace (phPat k) v t := by
  intro s
  induction s with
  | nil => intro t _; simp
  | cons c cs ih =>
    intro t hs
    have hc : c ≠ lbrace := hs c (by simp)
    have hne : isPre (phPat k) (c :: (cs ++ t)) = false := by
      have : lbrace ≠ c := fun h => hc h.symm
      simpa [phPat] using isPre_head_ne (lbrace :: (k ++ [rbrace, rbrace])) (cs ++ t) this
    have := pyReplace_neg (phPat k) v c (cs ++ t) hne
    simp only [List.cons_append]
    rw [this, ih t (fun x hx => hs x (by simp [hx]))]

theorem occursIn_skip_run (k : List Char) :
    ∀ s t : List Char, (∀ c ∈ s, c ≠ lbrace) →
      occursIn (phPat k) (s ++ t) = occursIn (phPat k) t := by
  intro s
  induction s with
  | nil => intro t _; simp
  | cons c cs ih =>
    intro t hs
    have hc : c ≠ lbrace := hs c (by simp)
    have hne : isPre (phPat k) (c :: (cs ++ t)) = false := by
      have : lbrace ≠ c := fun h => hc h.symm
      simpa [phPat] using isPre_head_ne (lbrace :: (k ++ [rbrace, rbrace])) (cs ++ t) this
    simp only [List.cons_append, occursIn_cons, hne, Bool.false_or]
    exact ih t (fun x hx => hs x (by simp [hx]))

theorem key_match_of_isPre :
    ∀ (j k : List Char) (t : List Char),
      (∀ c ∈ k, c ≠ rbrace) → (∀ c ∈ j, c ≠ rbrace) →
      isPre (k ++ [rbrace, rbrace]) (j ++ rbrace :: rbrace :: t) = true → k = j := by
  intro j
  induction j with
  | nil =>
    intro k t hk _ hp
    cases k with
    | nil => rfl
    | cons a as =>
      exfalso
      have ha : a ≠ rbrace := hk a (by simp)
      have : isPre (a :: (as ++ [rbrace, rbrace])) (rbrace :: rbrace :: t) = false :=
        isPre_head_ne _ _ ha
      simp only [List.nil_append] at hp
      rw [List.cons_append] at hp
      rw [this] at hp
      exact Bool.false_ne_true hp
  | cons b bs ih =>
    intro k t hk hj hp
    cases k with
    | nil =>
      exfalso
      have hb : b ≠ rbrace := hj b (by simp)
      have : isPre ([rbrace] ++ [rbrace]) (b :: (bs ++ rbrace :: rbrace :: t)) = false := by
        have : rbrace ≠ b := fun h => hb h.symm
        exact isPre_head_ne _ _ this
      simp only [List.nil_append] at hp
      rw [List.cons_append] at hp
      simp only [List.singleton_append] at this
      rw [this] at hp
      exact Bool.false_ne_true hp
    | cons a as =>
      rw [List.cons_append, List.cons_append, isPre_cons_cons] at hp
      by_cases hab : a = b
      · subst hab
        simp only [if_pos rfl] at hp
        have := ih as t (fun c hc => hk c (by simp [hc])) (fun c hc => hj c (by simp [hc])) hp
        rw [this]
      · rw [if_neg hab] at hp
        exact absurd hp Bool.false_ne_true

theorem phPat_isPre_eq (j k t : List Char)
    (hk : ∀ c ∈ k, c ≠ rbrace) (hj : ∀ c ∈ j, c ≠ rbrace)
    (hp : isPre (phPat k) (phPat j ++ t) = true) : k = j := by
  have h1 : phPat j ++ t = lbrace :: lbrace :: (j ++ rbrace :: rbrace :: t) := by
    simp [phPat]
  rw [h1] at hp
  simp only [phPat, isPre_cons_cons, if_pos rfl] at hp
  exact key_match_of_isPre j k t hk hj hp

theorem pyReplace_hit_tok (k v t : List Char) :
    pyReplace (phPat k) v (phPat k ++ t) = v ++ pyReplace (phPat k) v t := by
  have h0 : phPat k ≠ [] := by simp [phPat]
  have h1 : phPat k ++ t = lbrace :: ((lbrace :: (k ++ [rbrace, rbrace])) ++ t) := by
    simp [phPat]
  have hpre : isPre (phPat k) (lbrace :: ((lbrace :: (k ++ [rbrace, rbrace])) ++ t)) = true := by
    rw [← h1]; exact isPre_self_append _ _
  rw [h1, pyReplace_pos (phPat k) v _ _ h0 hpre]
  have hlen : (phPat k).length - 1 = (lbrace :: (k ++ [rbrace, rbrace])).length := by
    simp [phPat]
  rw [hlen, List.drop_left]

theorem braceFreeB_iff (s : List Char) :
    braceFreeB s = true ↔ ∀ c ∈ s, c ≠ lbrace ∧ c ≠ rbrace := by
  simp [braceFreeB, List.all_eq_true]

theorem pyReplace_skip_tok (k v j t : List Char)
    (hk : braceFreeB k = true) (hj : braceFreeB j = true) (hjne : j ≠ [])
    (hne : j ≠ k) :
    pyReplace (phPat k) v (phPat j ++ t) = phPat j ++ pyReplace (phPat k) v t := by
  have hkr : ∀ c ∈ k, c ≠ rbrace := fun c hc => ((braceFreeB_iff k).mp hk c hc).2
  have hjr : ∀ c ∈ j, c ≠ rbrace := fun c hc => ((braceFreeB_iff j).mp hj c hc).2
  have hjl : ∀ c ∈ j, c ≠ lbrace := fun c hc => ((braceFreeB_iff j).mp hj c hc).1
  -- position 0: a match here would force j = k
  have hpre0 : isPre (phPat k) (phPat j ++ t) = false := by
    cases hcase : isPre (phPat k) (phPat j ++ t) with
    | false => rfl
    | true => exact absurd (phPat_isPre_eq j k t hkr hjr hcase).symm hne
  obtain ⟨b, bs, hb⟩ : ∃ b bs, j = b :: bs := by
    cases j with
    | nil => exact absurd rfl hjne
    | cons b bs => exact ⟨b, bs, rfl⟩
  have hbl : b ≠ lbrace := hjl b (by simp [hb])
  -- unfold the two leading open braces
  have e1 : phPat j ++ t = lbrace :: (lbrace :: (j ++ rbrace :: rbrace :: t)) := by
    simp [phPat]
  rw [e1] at hpre0
  rw [e1, pyReplace_neg _ _ _ _ hpre0]
  -- position 1: the second character of the suffix is the head of j, not a brace
  have hpre1 : isPre (phPat k) (lbrace :: (j ++ rbrace :: rbrace :: t)) = false := by
    rw [hb]
    simp only [List.cons_append, phPat, isPre_cons_cons, if_pos rfl]
    have : lbrace ≠ b := fun h => hbl h.symm
    simp [this]
  rw [pyReplace_neg _ _ _ _ hpre1]
  -- the rest of the token consists of non-open-brace characters
  have e2 : j ++ rbrace :: rbrace :: t = (j ++ [rbrace, rbrace]) ++ t := by simp
  have hrun : ∀ c ∈ j ++ [rbrace, rbrace], c ≠ lbrace := by
    intro c hc
    rcases List.mem_append.mp hc with h | h
    · exact hjl c h
    · have hlr : lbrace ≠ rbrace := by decide
      rcases List.mem_pair.mp h with rfl | rfl <;> exact fun h2 => hlr h2.symm
  rw [e2, pyReplace_skip_run k v (j ++ [rbrace, rbrace]) t hrun]
  simp [phPat]

theorem occursIn_skip_tok (k j t : List Char)
    (hk : braceFreeB k = true) (hj : braceFreeB j = true) (hjne : j ≠ [])
    (hne : j ≠ k) :
    occursIn (phPat k) (phPat j ++ t) = occursIn (phPat k) t := by
  have hkr : ∀ c ∈ k, c ≠ rbrace := fun c hc => ((braceFreeB_iff k).mp hk c hc).2
  have hjr : ∀ c ∈ j, c ≠ rbrace := fun c hc => ((braceFreeB_iff j).mp hj c hc).2
  have hjl : ∀ c ∈ j, c ≠ lbrace := fun c hc => ((braceFreeB_iff j).mp hj c hc).1
  have hpre0 : isPre (phPat k) (phPat j ++ t) = false := by
    cases hcase : isPre (phPat k) (phPat j ++ t) with
    | false => rfl
    | true => exact absurd (phPat_isPre_eq j k t hkr hjr hcase).symm hne
  obtain ⟨b, bs, hb⟩ : ∃ b bs, j = b :: bs := by
    cases j with
    | nil => exact absurd rfl hjne
    | cons b bs => exact ⟨b, bs, rfl⟩
  have hbl : b ≠ lbrace := hjl b (by simp [hb])
  have e1 : phPat j ++ t = lbrace :: (lbrace :: (j ++ rbrace :: rbrace :: t)) := by
    simp [phPat]
  rw [e1] at hpre0
  rw [e1, occursIn_cons, hpre0, Bool.false_or]
  have hpre1 : isPre (phPat k) (lbrace :: (j ++ rbrace :: rbrace :: t)) = false := by
    rw [hb]
    simp only [List.cons_append, phPat, isPre_cons_cons, if_pos rfl]
    have : lbrace ≠ b := fun h => hbl h.symm
    simp [this]
  rw [occursIn_cons, hpre1, Bool.false_or]
  have e2 : j ++ rbrace :: rbrace :: t = (j ++ [rbrace, rbrace]) ++ t := by simp
  have hrun : ∀ c ∈ j ++ [rbrace, rbrace], c ≠ lbrace := by
    intro c hc
    rcases List.mem_append.mp hc with h | h
    · exact hjl c h
    · have hlr : lbrace ≠ rbrace := by decide
      rcases List.mem_pair.mp h with rfl | rfl <;> exact fun h2 => hlr h2.symm
  rw [e2, occursIn_skip_run k (j ++ [rbrace, rbrace]) t hrun]

theorem renderSegs_nil : renderSegs [] = [] := rfl

theorem renderSegs_cons (g : Seg) (S : List Seg) :
    renderSegs (g :: S) = renderSeg g ++ renderSegs S := rfl

theorem listJoin_append {α : Type} (l1 l2 : List (List α)) :
    listJoin (l1 ++ l2) = listJoin l1 ++ listJoin l2 := by
  induction l1 with
  | nil => rfl
  | cons x xs ih => simp [listJoin, ih]

theorem renderSegs_append (S1 S2 : List Seg) :
    renderSegs (S1 ++ S2) = renderSegs S1 ++ renderSegs S2 := by
  simp [renderSegs, listJoin_append]

theorem wfSegsB_cons (g : Seg) (S : List Seg) :
    wfSegsB (g :: S) = (wfSegB g && wfSegsB S) := by
  simp [wfSegsB]

theorem pyReplace_renderSegs (k v : List Char)
    (hk : braceFreeB k = true) (hkne : k ≠ []) :
    ∀ S : List Seg, wfSegsB S = true →
      pyReplace (phPat k) v (renderSegs S) = renderSegs (S.map (substTok k v)) := by
  intro S
  induction S with
  | nil => intro _; simp [renderSegs, listJoin, pyReplace_nil]
  | cons g S ih =>
    intro hwf
    rw [wfSegsB_cons, Bool.and_eq_true] at hwf
    obtain ⟨hg, hS⟩ := hwf
    cases g with
    | lit s =>
      have hbf : ∀ c ∈ s, c ≠ lbrace :=
        fun c hc => ((braceFreeB_iff s).mp (by simpa [wfSegB] using hg) c hc).1
      rw [renderSegs_cons]
      simp only [renderSeg]
      rw [pyReplace_skip_run k v s (renderSegs S) hbf, ih hS]
      simp [renderSegs_cons, substTok, renderSeg]
    | tok j =>
      have hj : braceFreeB j = true ∧ j ≠ [] := by
        have h1 := hg
        simp only [wfSegB, Bool.and_eq_true, Bool.not_eq_true'] at h1
        refine ⟨h1.1, ?_⟩
        intro hnil
        rw [hnil] at h1
        simp [List.isEmpty] at h1
      rw [renderSegs_cons]
      simp only [renderSeg]
      by_cases hjk : j = k
      · subst hjk
        rw [pyReplace_hit_tok j v (renderSegs S), ih hS]
        simp [renderSegs_cons, substTok, renderSeg]
      · rw [pyReplace_skip_tok k v j (renderSegs S) hk hj.1 hj.2 hjk, ih hS]
        simp [renderSegs_cons, substTok, renderSeg, hjk]

theorem wfSegsB_map_substTok (k v : List Char) (hv : braceFreeB v = true) :
    ∀ S : List Seg, wfSegsB S = true → wfSegsB (S.map (substTok k v)) = true := by
  intro S
  induction S with
  | nil => intro _; rfl
  | cons g S ih =>
    intro hwf
    rw [wfSegsB_cons, Bool.and_eq_true] at hwf
    obtain ⟨hg, hS⟩ := hwf
    rw [List.map_cons, wfSegsB_cons, Bool.and_eq_true]
    refine ⟨?_, ih hS⟩
    cases g with
    | lit s => simpa [substTok, wfSegB] using hg
    | tok j =>
      by_cases hjk : j = k
      · simp [substTok, hjk, wfSegB, hv]
      · simpa [substTok, hjk, wfSegB] using hg

theorem tok_mem_map_substTok (k v j : List Char) :
    ∀ S : List Seg, Seg.tok j ∈ S.map (substTok k v) → Seg.tok j ∈ S ∧ j ≠ k := by
  intro S
  induction S with
  | nil => intro h; simp at h
  | cons g S ih =>
    intro h
    rw [List.map_cons, List.mem_cons] at h
    rcases h with h | h
    · cases g with
      | lit s => simp [substTok] at h
      | tok i =>
        by_cases hik : i = k
        · simp [substTok, hik] at h
        · simp only [substTok, if_neg hik] at h
          have : i = j := by injection h.symm
          subst this
          exact ⟨by simp, hik⟩
    · obtain ⟨h1, h2⟩ := ih h
      exact ⟨by simp [h1], h2⟩

theorem applySubsts_nil_map (S : List Seg) : applySubsts [] S = S := rfl

theorem applySubsts_cons (kv : List Char × List Char)
    (R : List (List Char × List Char)) (S : List Seg) :
    applySubsts (kv :: R) S = applySubsts R (S.map (substTok kv.1 kv.2)) := rfl

theorem replaceAllMap_nil_map (s : List Char) : replaceAllMap [] s = s := rfl

theorem replaceAllMap_cons (kv : List Char × List Char)
    (R : List (List Char × List Char)) (s : List Char) :
    replaceAllMap (kv :: R) s = replaceAllMap R (pyReplace (phPat kv.1) kv.2 s) := rfl

theorem replaceAllMap_renderSegs (R : List (List Char × List Char))
    (hR : ∀ kv ∈ R, braceFreeB kv.1 = true ∧ kv.1 ≠ [] ∧ braceFreeB kv.2 = true) :
    ∀ S : List Seg, wfSegsB S = true →
      replaceAllMap R (renderSegs S) = renderSegs (applySubsts R S) := by
  induction R with
  | nil => intro S _; rfl
  | cons kv R ih =>
    intro S hS
    have hkv := hR kv (by simp)
    rw [replaceAllMap_cons, applySubsts_cons,
        pyReplace_renderSegs kv.1 kv.2 hkv.1 hkv.2.1 S hS]
    exact ih (fun x hx => hR x (by simp [hx])) _
      (wfSegsB_map_substTok kv.1 kv.2 hkv.2.2 S hS)

theorem wfSegsB_applySubsts (R : List (List Char × List Char))
    (hR : ∀ kv ∈ R, braceFreeB kv.2 = true) :
    ∀ S : List Seg, wfSegsB S = true → wfSegsB (applySubsts R S) = true := by
  induction R with
  | nil => intro S h; exact h
  | cons kv R ih =>
    intro S hS
    rw [applySubsts_cons]
    exact ih (fun x hx => hR x (by simp [hx])) _
      (wfSegsB_map_substTok kv.1 kv.2 (hR kv (by simp)) S hS)

theorem tok_mem_applySubsts (R : List (List Char × List Char)) (j : List Char) :
    ∀ S : List Seg, Seg.tok j ∈ applySubsts R S →
      Seg.tok j ∈ S ∧ ∀ kv ∈ R, j ≠ kv.1 := by
  induction R with
  | nil => intro S h; exact ⟨h, by simp⟩
  | cons kv R ih =>
    intro S h
    rw [applySubsts_cons] at h
    obtain ⟨h1, h2⟩ := ih _ h
    obtain ⟨h3, h4⟩ := tok_mem_map_substTok kv.1 kv.2 j S h1
    refine ⟨h3, ?_⟩
    intro x hx
    rcases List.mem_cons.mp hx with rfl | hx2
    · exact h4
    · exact h2 x hx2

theorem occursIn_renderSegs_no_tok (k : List Char)
    (hk : braceFreeB k = true) :
    ∀ S : List Seg, wfSegsB S = true → (∀ j, Seg.tok j ∈ S → j ≠ k) →
      occursIn (phPat k) (renderSegs S) = false := by
  intro S
  induction S with
  | nil => intro _ _; exact occursIn_phPat_nil k
  | cons g S ih =>
    intro hwf hno
    rw [wfSegsB_cons, Bool.and_eq_true] at hwf
    obtain ⟨hg, hS⟩ := hwf
    rw [renderSegs_cons]
    cases g with
    | lit s =>
      have hbf : ∀ c ∈ s, c ≠ lbrace :=
        fun c hc => ((braceFreeB_iff s).mp (by simpa [wfSegB] using hg) c hc).1
      simp only [renderSeg]
      rw [occursIn_skip_run k s (renderSegs S) hbf]
      exact ih hS (fun j hj => hno j (by simp [hj]))
    | tok j =>
      have hj : braceFreeB j = true ∧ j ≠ [] := by
        have h1 := hg
        simp only [wfSegB, Bool.and_eq_true, Bool.not_eq_true'] at h1
        refine ⟨h1.1, ?_⟩
        intro hnil
        rw [hnil] at h1
        simp [List.isEmpty] at h1
      have hjk : j ≠ k := hno j (by simp)
      simp only [renderSeg]
      rw [occursIn_skip_tok k j (renderSegs S) hk hj.1 hj.2 hjk]
      exact ih hS (fun i hi => hno i (by simp [hi]))

theorem occursIn_of_tok_mem (k : List Char) (S : List Seg)
    (h : Seg.tok k ∈ S) : occursIn (phPat k) (renderSegs S) = true := by
  obtain ⟨S1, S2, rfl⟩ := List.append_of_mem h
  rw [renderSegs_append, renderSegs_cons]
  simp only [renderSeg]
  exact occursIn_append_right (phPat k) (renderSegs S1) _
    (occursIn_self_append k (renderSegs S2))

theorem hasMappedPattern_eq_false_iff (R : List (List Char × List Char)) (s : List Char) :
    hasMappedPattern R s = false ↔ ∀ kv ∈ R, occursIn (phPat kv.1) s = false := by
  simp [hasMappedPattern, List.any_eq_false]

theorem map_self_of_fix {α : Type} (f : α → α) :
    ∀ l : List α, (∀ x ∈ l, f x = x) → l.map f = l := by
  intro l
  induction l with
  | nil => intro _; rfl
  | cons x xs ih =>
    intro h
    rw [List.map_cons, h x (by simp), ih (fun y hy => h y (by simp [hy]))]

theorem applySubsts_id_of_no_tok (R : List (List Char × List Char)) :
    ∀ S : List Seg, (∀ kv ∈ R, ∀ j, Seg.tok j ∈ S → j ≠ kv.1) →
      applySubsts R S = S := by
  induction R with
  | nil => intro S _; rfl
  | cons kv R ih =>
    intro S hno
    rw [applySubsts_cons]
    have hmap : S.map (substTok kv.1 kv.2) = S := by
      apply map_self_of_fix
      intro g hg
      cases g with
      | lit s => rfl
      | tok j =>
        have : j ≠ kv.1 := hno kv (by simp) j hg
        simp [substTok, this]
    rw [hmap]
    exact ih S (fun x hx j hj => hno x (by simp [hx]) j hj)

theorem paragraphText_single (t : List Char) (pr : RunProps) :
    paragraphText [⟨t, pr⟩] = t := by
  simp [paragraphText, listJoin]

theorem replaceParagraph_text (R : List (List Char × List Char)) (p : Para)
    (h : hasMappedPattern R (paragraphText p) = true) :
    paragraphText (replacePlaceholdersInParagraph R p) = replaceAllMap R (paragraphText p) := by
  cases p with
  | nil =>
    simp only [replacePlaceholdersInParagraph, h]
    simp [paragraphText_single]
  | cons r rs =>
    simp only [replacePlaceholdersInParagraph, h]
    simp [paragraphText_single]

theorem replaceParagraph_untouched (R : List (List Char × List Char)) (p : Para)
    (h : hasMappedPattern R (paragraphText p) = false) :
    replacePlaceholdersInParagraph R p = p := by
  simp [replacePlaceholdersInParagraph, h]

theorem replaceParagraph_core (R : List (List Char × List Char))
    (hR : ∀ kv ∈ R, braceFreeB kv.1 = true ∧ kv.1 ≠ [] ∧ braceFreeB kv.2 = true)
    (p : Para) (S : List Seg) (hwf : wfSegsB S = true)
    (ht : paragraphText p = renderSegs S) :
    paragraphText (replacePlaceholdersInParagraph R p) = renderSegs (applySubsts R S)
    ∧ ∀ kv ∈ R,
        occursIn (phPat kv.1) (paragraphText (replacePlaceholdersInParagraph R p)) = false := by
  cases h : hasMappedPattern R (paragraphText p) with
  | false =>
    rw [replaceParagraph_untouched R p h]
    have hocc := (hasMappedPattern_eq_false_iff R (paragraphText p)).mp h
    have hno : ∀ kv ∈ R, ∀ j, Seg.tok j ∈ S → j ≠ kv.1 := by
      intro kv hkv j hj heq
      have h1 : occursIn (phPat j) (renderSegs S) = true := occursIn_of_tok_mem j S hj
      have h2 := hocc kv hkv
      rw [ht] at h2
      rw [heq] at h1
      exact absurd (h1.symm.trans h2) (by decide)
    rw [applySubsts_id_of_no_tok R S hno]
    exact ⟨ht, hocc⟩
  | true =>
    have htext := replaceParagraph_text R p h
    rw [htext, ht, replaceAllMap_renderSegs R hR S hwf]
    refine ⟨rfl, ?_⟩
    intro kv hkv
    apply occursIn_renderSegs_no_tok kv.1 (hR kv hkv).1 _
      (wfSegsB_applySubsts R (fun x hx => (hR x hx).2.2) S hwf)
    intro j hj
    exact (tok_mem_applySubsts R j S hj).2 kv hkv

theorem listJoin_map {α β : Type} (f : α → β) :
    ∀ ll : List (List α), (listJoin ll).map f = listJoin (ll.map (List.map f)) := by
  intro ll
  induction ll with
  | nil => rfl
  | cons x xs ih => simp [listJoin, ih]

theorem mem_listJoin_intro {α : Type} (ll : List (List α)) (l : List α) (x : α)
    (hl : l ∈ ll) (hx : x ∈ l) : x ∈ listJoin ll := by
  induction ll with
  | nil => simp at hl
  | cons y ys ih =>
    rcases List.mem_cons.mp hl with rfl | h
    · simp [listJoin, List.mem_append]
      exact Or.inl hx
    · simp [listJoin, List.mem_append]
      exact Or.inr (by simpa [listJoin] using ih h)

theorem map_congr_fun {α β : Type} (f g : α → β) :
    ∀ l : List α, (∀ x ∈ l, f x = g x) → l.map f = l.map g := by
  intro l
  induction l with
  | nil => intro _; rfl
  | cons x xs ih =>
    intro h
    rw [List.map_cons, List.map_cons, h x (by simp), ih (fun y hy => h y (by simp [hy]))]

theorem tables_piece (f : Para → Para) (tables : List Tablet) :
    listJoin (listJoin (listJoin (tables.map (fun t => t.map (fun row => row.map
        (fun cell => cell.map f))))))
      = (listJoin (listJoin (listJoin tables))).map f := by
  rw [listJoin_map f, listJoin_map (List.map f), listJoin_map (List.map (List.map f))]

theorem sections_piece (f : Para → Para) (sections : List Sectiont) :
    listJoin ((sections.map (fun s => Sectiont.mk (s.header.map f) (s.footer.map f))).map
        (fun s => s.header ++ s.footer))
      = (listJoin (sections.map (fun s => s.header ++ s.footer))).map f := by
  rw [listJoin_map f, List.map_map, List.map_map]
  apply congrArg listJoin
  apply map_congr_fun
  intro s _
  simp [Function.comp, List.map_append]

theorem docParagraphs_processDocx (R : List (List Char × List Char)) (d : Doc) :
    docParagraphs (processDocxTemplate R d)
      = (docParagraphs d).map (replacePlaceholdersInParagraph R) := by
  simp only [docParagraphs, processDocxTemplate, List.map_append]
  rw [tables_piece, sections_piece]

theorem processed_no_mapped (R : List (List Char × List Char))
    (hR : ∀ kv ∈ R, braceFreeB kv.1 = true ∧ kv.1 ≠ [] ∧ braceFreeB kv.2 = true)
    (p : Para) (S : List Seg) (hwf : wfSegsB S = true)
    (ht : paragraphText p = renderSegs S) :
    hasMappedPattern R (paragraphText (replacePlaceholdersInParagraph R p)) = false := by
  apply (hasMappedPattern_eq_false_iff R _).mpr
  exact (replaceParagraph_core R hR p S hwf ht).2

theorem map_map_self {α : Type} (g : α → α) (l : List α)
    (h : ∀ x ∈ l, g (g x) = g x) : (l.map g).map g = l.map g := by
  rw [List.map_map]
  apply map_congr_fun
  intro x hx
  simpa [Function.comp] using h x hx

theorem mem_docParagraphs_of_mem_paragraphs (d : Doc) (p : Para)
    (h : p ∈ d.paragraphs) : p ∈ docParagraphs d := by
  simp [docParagraphs, List.mem_append]
  tauto

theorem mem_docParagraphs_of_mem_tables (d : Doc) (t : Tablet) (row : Rowt)
    (cell : Cell) (p : Para) (ht : t ∈ d.tables) (hrow : row ∈ t)
    (hcell : cell ∈ row) (hp : p ∈ cell) : p ∈ docParagraphs d := by
  have h1 : row ∈ listJoin d.tables := mem_listJoin_intro d.tables t row ht hrow
  have h2 : cell ∈ listJoin (listJoin d.tables) :=
    mem_listJoin_intro _ row cell h1 hcell
  have h3 : p ∈ listJoin (listJoin (listJoin d.tables)) :=
    mem_listJoin_intro _ cell p h2 hp
  simp [docParagraphs, List.mem_append]
  tauto

theorem mem_docParagraphs_of_mem_sections (d : Doc) (s : Sectiont) (p : Para)
    (hs : s ∈ d.sections) (hp : p ∈ s.header ++ s.footer) : p ∈ docParagraphs d := by
  have h1 : (s.header ++ s.footer) ∈ d.sections.map (fun x => x.header ++ x.footer) :=
    List.mem_map_of_mem _ hs
  have h2 : p ∈ listJoin (d.sections.map (fun x => x.header ++ x.footer)) :=
    mem_listJoin_intro _ _ p h1 hp
  simp [docParagraphs, List.mem_append]
  tauto

theorem processDocx_idem_pointwise (R : List (List Char × List Char)) (d : Doc)
    (hfix : ∀ p ∈ docParagraphs d,
      replacePlaceholdersInParagraph R (replacePlaceholdersInParagraph R p)
        = replacePlaceholdersInParagraph R p) :
    processDocxTemplate R (processDocxTemplate R d) = processDocxTemplate R d := by
  obtain ⟨paras, tables, sections⟩ := d
  simp only [processDocxTemplate, Doc.mk.injEq]
  refine ⟨?_, ?_, ?_⟩
  · apply map_map_self
    intro p hp
    exact hfix p (mem_docParagraphs_of_mem_paragraphs ⟨paras, tables, sections⟩ p hp)
  · apply map_map_self
    intro t ht
    show (t.map _).map _ = t.map _
    apply map_map_self
    intro row hrow
    show (row.map _).map _ = row.map _
    apply map_map_self
    intro cell hcell
    show (cell.map _).map _ = cell.map _
    apply map_map_self
    intro p hp
    exact hfix p (mem_docParagraphs_of_mem_tables ⟨paras, tables, sections⟩ t row cell p
      ht hrow hcell hp)
  · apply map_map_self
    intro s hs
    show Sectiont.mk _ _ = Sectiont.mk _ _
    have hh : ((s.header.map (replacePlaceholdersInParagraph R)).map
        (replacePlaceholdersInParagraph R)) = s.header.map (replacePlaceholdersInParagraph R) := by
      apply map_map_self
      intro p hp
      exact hfix p (mem_docParagraphs_of_mem_sections ⟨paras, tables, sections⟩ s p hs
        (List.mem_append.mpr (Or.inl hp)))
    have hf : ((s.footer.map (replacePlaceholdersInParagraph R)).map
        (replacePlaceholdersInParagraph R)) = s.footer.map (replacePlaceholdersInParagraph R) := by
      apply map_map_self
      intro p hp
      exact hfix p (mem_docParagraphs_of_mem_sections ⟨paras, tables, sections⟩ s p hs
        (List.mem_append.mpr (Or.inr hp)))
    rw [hh, hf]

theorem mem_firstSeenGo (a : List Char) :
    ∀ (l seen : List (List Char)), a ∈ firstSeenGo seen l ↔ (a ∈ l ∧ a ∉ seen) := by
  intro l
  induction l with
  | nil => intro seen; simp [firstSeenGo]
  | cons x xs ih =>
    intro seen
    by_cases hx : x ∈ seen
    · rw [firstSeenGo, if_pos hx, ih seen]
      constructor
      · intro ⟨h1, h2⟩; exact ⟨by simp [h1], h2⟩
      · intro ⟨h1, h2⟩
        rcases List.mem_cons.mp h1 with rfl | h3
        · exact absurd hx h2
        · exact ⟨h3, h2⟩
    · rw [firstSeenGo, if_neg hx]
      rw [List.mem_cons, ih (x :: seen)]
      constructor
      · intro h
        rcases h with rfl | ⟨h1, h2⟩
        · exact ⟨by simp, hx⟩
        · exact ⟨by simp [h1], fun hc => h2 (by simp [hc])⟩
      · intro ⟨h1, h2⟩
        rcases List.mem_cons.mp h1 with rfl | h3
        · exact Or.inl rfl
        · by_cases hax : a = x
          · exact Or.inl hax
          · exact Or.inr ⟨h3, by simp [hax, h2]⟩

theorem firstSeen_toFinset (l : List (List Char)) :
    (firstSeen l).toFinset = l.toFinset := by
  ext a
  simp [firstSeen, List.mem_toFinset, mem_firstSeenGo]

theorem processTaskGo_all_fail (outcomes : Nat → AttemptOutcome)
    (errs : Nat → List Char) (hfail : ∀ i, outcomes i = AttemptOutcome.err (errs i)) :
    ∀ left retries, processTaskGo outcomes left retries =
      ⟨ProcStatus.failed, none, some (errs (retries + left)), left + 1, left,
       List.replicate (left + 1) GenCall.googleDocsPdf⟩ := by
  intro left
  induction left with
  | zero =>
    intro retries
    simp [processTaskGo, hfail retries]
  | succ l ih =>
    intro retries
    rw [processTaskGo, hfail retries]
    simp only [ih (retries + 1)]
    have : retries + 1 + l = retries + (l + 1) := by omega
    simp [this, List.replicate_succ]

/-- C2: a task whose every generation attempt fails is marked Failed after
exactly maxRetries + 1 attempts; the attempt counter increments on each try,
the fixed retry delay is slept exactly once between consecutive attempts
(maxRetries sleeps), and the error retained on the task is the last
attempt's error. -/
theorem C2_retry_bound (outcomes : Nat → AttemptOutcome) (errs : Nat → List Char)
    (maxRetries : Nat) (hfail : ∀ i, outcomes i = AttemptOutcome.err (errs i)) :
    processTask outcomes maxRetries =
      ⟨ProcStatus.failed, none, some (errs maxRetries), maxRetries + 1, maxRetries,
       List.replicate (maxRetries + 1) GenCall.googleDocsPdf⟩ := by
  have h := processTaskGo_all_fail outcomes errs hfail maxRetries 0
  simpa [processTask] using h

/-- Witness for C2 at maxRetries = 3: four attempts, three sleeps, failed,
with the last error retained. -/
theorem C2_retry_bound_witness :
    processTask (fun _ => AttemptOutcome.err (s2l ("boom"))) 3 =
      ⟨ProcStatus.failed, none, some (s2l ("boom")), 4, 3,
       List.replicate 4 GenCall.googleDocsPdf⟩ :=
  C2_retry_bound (fun _ => AttemptOutcome.err (s2l ("boom")))
    (fun _ => s2l ("boom")) 3 (fun _ => rfl)

/-- Counterexample to C3 as stated: with maxRetries = 1 the first strategy
(generate_pdf_for_service_request) raises on every attempt, yet the second
strategy (generate_pdf_fallback) is never invoked — the worker retries the
first strategy and then fails the task. -/
theorem C3_counterexample :
    (processTask (fun _ => AttemptOutcome.err (s2l ("tier one raised"))) 1).status
        = ProcStatus.failed
    ∧ (processTask (fun _ => AttemptOutcome.err (s2l ("tier one raised"))) 1).calls
        = [GenCall.googleDocsPdf, GenCall.googleDocsPdf]
    ∧ GenCall.fallbackPdf ∉
        (processTask (fun _ => AttemptOutcome.err (s2l ("tier one raised"))) 1).calls := by
  refine ⟨by decide, by decide, by decide⟩

/-- C3 amended: the worker never invokes the simplified or pass-through
strategies (generate_pdf_fallback): every generator invocation it makes is
generate_pdf_for_service_request, one per attempt — whether the first
strategy raises (it is retried, then the task fails) or succeeds. -/
theorem C3_amended_worker_calls (outcomes : Nat → AttemptOutcome) (maxRetries : Nat) :
    (processTask outcomes maxRetries).calls =
      List.replicate (processTask outcomes maxRetries).attempts GenCall.googleDocsPdf := by
  suffices h : ∀ left retries, (processTaskGo outcomes left retries).calls =
      List.replicate (processTaskGo outcomes left retries).attempts GenCall.googleDocsPdf by
    exact h maxRetries 0
  intro left
  induction left with
  | zero =>
    intro retries
    rw [processTaskGo]
    cases outcomes retries <;> simp
  | succ l ih =>
    intro retries
    rw [processTaskGo]
    cases outcomes retries with
    | ok f => simp
    | err m =>
      simp only []
      rw [ih (retries + 1)]
      simp [List.replicate_succ]

/-- Counterexample to C6 as stated: a paragraph of two runs whose
concatenated text is an (unmapped) placeholder pattern.  The text contains a
placeholder pattern, yet the run list is left untouched (two runs), not
replaced by a single run. -/
theorem C6_counterexample :
    findNames (paragraphText
        [⟨lbrace :: lbrace :: s2l ("x"), noProps⟩, ⟨[rbrace, rbrace], noProps⟩]) ≠ []
    ∧ replacePlaceholdersInParagraph [(s2l ("y"), s2l ("v"))]
        [⟨lbrace :: lbrace :: s2l ("x"), noProps⟩, ⟨[rbrace, rbrace], noProps⟩]
      = [⟨lbrace :: lbrace :: s2l ("x"), noProps⟩, ⟨[rbrace, rbrace], noProps⟩]
    ∧ (replacePlaceholdersInParagraph [(s2l ("y"), s2l ("v"))]
        [⟨lbrace :: lbrace :: s2l ("x"), noProps⟩, ⟨[rbrace, rbrace], noProps⟩]).length = 2 := by
  refine ⟨by decide, by decide, by decide⟩

/-- C6 amended: per paragraph, if the concatenation of all runs contains no
pattern of a *mapped* key, the runs are left untouched; if it contains some
mapped key's pattern, the run list is replaced by a single run carrying the
fully substituted text, whose attributes are transferred from the first
original run (bold/italic/underline copied as stored, font name/size/color/
highlight copied when truthy). -/
theorem C6_amended_paragraph (R : List (List Char × List Char)) (p : Para) :
    (hasMappedPattern R (paragraphText p) = false →
      replacePlaceholdersInParagraph R p = p)
    ∧ (∀ r rs, p = r :: rs → hasMappedPattern R (paragraphText p) = true →
      replacePlaceholdersInParagraph R p =
        [⟨replaceAllMap R (paragraphText p), adoptProps r.props⟩]) := by
  constructor
  · intro h
    exact replaceParagraph_untouched R p h
  · intro r rs hp h
    subst hp
    simp [replacePlaceholdersInParagraph, h]

/-- Witness for C6 amended: both branches at concrete inputs — an untouched
paragraph without mapped patterns, and a collapse to a single styled run. -/
theorem C6_amended_paragraph_witness :
    replacePlaceholdersInParagraph [(s2l ("y"), s2l ("v"))] [⟨s2l ("plain"), noProps⟩]
      = [⟨s2l ("plain"), noProps⟩]
    ∧ replacePlaceholdersInParagraph [(s2l ("y"), s2l ("v"))]
        [⟨phPat (s2l ("y")), ⟨some true, none, none, some (s2l ("Vazir")), some 12, none, none⟩⟩]
      = [⟨s2l ("v"), ⟨some true, none, none, some (s2l ("Vazir")), some 12, none, none⟩⟩] := by
  constructor
  · exact (C6_amended_paragraph [(s2l ("y"), s2l ("v"))] [⟨s2l ("plain"), noProps⟩]).1
      (by decide)
  · have h := (C6_amended_paragraph [(s2l ("y"), s2l ("v"))]
      [⟨phPat (s2l ("y")), ⟨some true, none, none, some (s2l ("Vazir")), some 12, none, none⟩⟩]).2
      ⟨phPat (s2l ("y")), ⟨some true, none, none, some (s2l ("Vazir")), some 12, none, none⟩⟩
      [] rfl (by decide)
    rw [h]
    decide

/-- Counterexample to C7 as stated: two documents whose traversals see the
same two names in opposite first-seen orders produce *equal* scanner
outputs — the returned set is unordered, so the reported collection cannot
preserve first-seen order. -/
theorem C7_counterexample :
    detectPlaceholdersInDocx
        ⟨[[⟨phPat (s2l ("a")) ++ phPat (s2l ("b")), noProps⟩]], [], []⟩
      = detectPlaceholdersInDocx
        ⟨[[⟨phPat (s2l ("b")) ++ phPat (s2l ("a")), noProps⟩]], [], []⟩
    ∧ firstSeen (docFoundNames
        ⟨[[⟨phPat (s2l ("a")) ++ phPat (s2l ("b")), noProps⟩]], [], []⟩)
      ≠ firstSeen (docFoundNames
        ⟨[[⟨phPat (s2l ("b")) ++ phPat (s2l ("a")), noProps⟩]], [], []⟩) := by
  refine ⟨by decide, by decide⟩

/-- C7 amended: the scanner traverses deterministically — body paragraphs,
then tables (row-major, then cell-major), then per section header then
footer paragraphs — and returns the names collapsed into an unordered set:
exactly the finite set underlying the first-seen-order traversal list, with
the order itself discarded. -/
theorem C7_amended_scanner (d : Doc) :
    detectPlaceholdersInDocx d = (firstSeen (docFoundNames d)).toFinset := by
  rw [detectPlaceholdersInDocx, firstSeen_toFinset]

theorem assocGet_map_set (r : Nat) (st : ProcStatus) :
    ∀ h : List (Nat × TaskObj),
      assocGet (h.map (fun p => match p with
          | (k, o) => if k = r then (k, (⟨st, o.result, o.error⟩ : TaskObj)) else (k, o))) r
        = (assocGet h r).map (fun o => (⟨st, o.result, o.error⟩ : TaskObj)) := by
  intro h
  induction h with
  | nil => rfl
  | cons p rest ih =>
    obtain ⟨k, v⟩ := p
    simp only [List.map_cons]
    by_cases hk : k = r
    · subst hk
      rw [if_pos rfl, assocGet, if_pos rfl, assocGet, if_pos rfl]
      rfl
    · have hk2 : r ≠ k := fun hcon => hk hcon.symm
      rw [if_neg hk, assocGet, if_neg hk2, assocGet, if_neg hk2]
      exact ih

theorem derefTask_setTaskStatus (q : QueueState) (r : Nat) (st : ProcStatus) :
    derefTask (setTaskStatus q r st) r =
      (derefTask q r).map (fun o => ⟨st, o.result, o.error⟩) :=
  assocGet_map_set r st q.heap

/-- Counterexample to C8 as stated: a store holding one pending task.
`get_task_status` returns a reference to the live stored object; after the
worker mutates the task's status through that object, reading through the
very reference returned earlier observes the new status — the returned value
is not an immutable point-in-time copy. -/
theorem C8_counterexample :
    getTaskStatus ⟨[(0, ⟨ProcStatus.pending, none, none⟩)], 1, [(s2l ("t1"), 0)]⟩
        (s2l ("t1")) = some 0
    ∧ derefTask ⟨[(0, ⟨ProcStatus.pending, none, none⟩)], 1, [(s2l ("t1"), 0)]⟩ 0
        = some ⟨ProcStatus.pending, none, none⟩
    ∧ derefTask (setTaskStatus
        ⟨[(0, ⟨ProcStatus.pending, none, none⟩)], 1, [(s2l ("t1"), 0)]⟩ 0
        ProcStatus.processing) 0
        = some ⟨ProcStatus.processing, none, none⟩
    ∧ derefTask (setTaskStatus
        ⟨[(0, ⟨ProcStatus.pending, none, none⟩)], 1, [(s2l ("t1"), 0)]⟩ 0
        ProcStatus.processing) 0
        ≠ derefTask ⟨[(0, ⟨ProcStatus.pending, none, none⟩)], 1, [(s2l ("t1"), 0)]⟩ 0 := by
  refine ⟨by decide, by decide, by decide, by decide⟩

/-- C8 amended: `get_task_status` returns the stored live reference (under
the lock), never a copy: the same task id still resolves to the same
reference after a worker mutation, and reading through the returned
reference observes the mutated object. -/
theorem C8_amended_live_reference (q : QueueState) (tid : List Char) (r : Nat)
    (h : getTaskStatus q tid = some r) (st : ProcStatus) :
    getTaskStatus (setTaskStatus q r st) tid = some r
    ∧ derefTask (setTaskStatus q r st) r =
        (derefTask q r).map (fun o => ⟨st, o.result, o.error⟩) := by
  constructor
  · exact h
  · exact derefTask_setTaskStatus q r st

/-- Witness for C8 amended at the concrete one-task store. -/
theorem C8_amended_live_reference_witness :
    getTaskStatus (setTaskStatus
        ⟨[(0, ⟨ProcStatus.pending, none, none⟩)], 1, [(s2l ("t1"), 0)]⟩ 0
        ProcStatus.processing) (s2l ("t1")) = some 0
    ∧ derefTask (setTaskStatus
        ⟨[(0, ⟨ProcStatus.pending, none, none⟩)], 1, [(s2l ("t1"), 0)]⟩ 0
        ProcStatus.processing) 0
      = (derefTask ⟨[(0, ⟨ProcStatus.pending, none, none⟩)], 1, [(s2l ("t1"), 0)]⟩ 0).map
          (fun o => ⟨ProcStatus.processing, o.result, o.error⟩) :=
  C8_amended_live_reference
    ⟨[(0, ⟨ProcStatus.pending, none, none⟩)], 1, [(s2l ("t1"), 0)]⟩
    (s2l ("t1")) 0 (by decide) ProcStatus.processing

theorem decVal_append_digit (xs : List Char) (c : Char) :
    decVal (xs ++ [c]) = decVal xs * 10 + (c.toNat - 48) := by
  simp [decVal, List.foldl_append]

theorem digitChar_val (d : Nat) (h : d < 10) : (digitChar d).toNat - 48 = d := by
  interval_cases d <;> decide

theorem decVal_natToDecF : ∀ fuel n, n ≤ fuel → decVal (natToDecF fuel n) = n := by
  intro fuel
  induction fuel with
  | zero =>
    intro n h
    have : n = 0 := by omega
    subst this
    decide
  | succ f ih =>
    intro n h
    by_cases h10 : n < 10
    · simp only [natToDecF, if_pos h10]
      show decVal ([] ++ [digitChar n]) = n
      rw [decVal_append_digit, digitChar_val n h10]
      simp [decVal]
    · simp only [natToDecF, if_neg h10]
      rw [decVal_append_digit, ih (n / 10) (by omega), digitChar_val (n % 10) (by omega)]
      omega

theorem decVal_natToDec (n : Nat) : decVal (natToDec n) = n :=
  decVal_natToDecF n n (le_refl n)

theorem natToDec_inj (m n : Nat) (h : natToDec m = natToDec n) : m = n := by
  have := decVal_natToDec m
  rw [h, decVal_natToDec n] at this
  omega

theorem natToDecF_no_underscore : ∀ fuel n, ∀ c ∈ natToDecF fuel n, c ≠ '_' := by
  intro fuel
  induction fuel with
  | zero =>
    intro n c hc
    simp only [natToDecF, List.mem_singleton] at hc
    subst hc
    intro hcon
    have h1 : digitChar n = '0' ∨ digitChar n = '1' ∨ digitChar n = '2' ∨ digitChar n = '3'
        ∨ digitChar n = '4' ∨ digitChar n = '5' ∨ digitChar n = '6' ∨ digitChar n = '7'
        ∨ digitChar n = '8' ∨ digitChar n = '9' := by
      unfold digitChar
      rcases n with _ | _ | _ | _ | _ | _ | _ | _ | _ | _ | n <;> simp
    rcases h1 with h | h | h | h | h | h | h | h | h | h <;> rw [hcon] at h <;> exact absurd h (by decide)
  | succ f ih =>
    intro n c hc
    by_cases h10 : n < 10
    · simp only [natToDecF, if_pos h10, List.mem_singleton] at hc
      subst hc
      intro hcon
      have h1 : (digitChar n).toNat - 48 = n := digitChar_val n h10
      rw [hcon] at h1
      have : n < 10 := h10
      simp at h1
      omega
    · simp only [natToDecF, if_neg h10, List.mem_append, List.mem_singleton] at hc
      rcases hc with hc | hc
      · exact ih (n / 10) c hc
      · subst hc
        intro hcon
        have h1 : (digitChar (n % 10)).toNat - 48 = n % 10 := digitChar_val (n % 10) (by omega)
        rw [hcon] at h1
        have h2 : n % 10 < 10 := by omega
        simp at h1
        omega

theorem split_at_marker :
    ∀ (u1 : List Char) (v1 : List Char) (u2 v2 : List Char),
      ('_' ∉ u1) → ('_' ∉ u2) →
      u1 ++ '_' :: v1 = u2 ++ '_' :: v2 → u1 = u2 ∧ v1 = v2 := by
  intro u1
  induction u1 with
  | nil =>
    intro v1 u2 v2 _ hu2 h
    cases u2 with
    | nil => simpa using h
    | cons b bs =>
      exfalso
      simp only [List.nil_append, List.cons_append, List.cons.injEq] at h
      exact hu2 (by simp [← h.1])
  | cons a as ih =>
    intro v1 u2 v2 hu1 hu2 h
    cases u2 with
    | nil =>
      exfalso
      simp only [List.cons_append, List.nil_append, List.cons.injEq] at h
      exact hu1 (by simp [h.1])
    | cons b bs =>
      simp only [List.cons_append, List.cons.injEq] at h
      obtain ⟨rfl, h2⟩ := h
      obtain ⟨h3, h4⟩ := ih v1 bs v2 (fun hc => hu1 (by simp [hc])) (fun hc => hu2 (by simp [hc])) h2
      exact ⟨by rw [h3], h4⟩

/-- Counterexample to C9 as stated: two `add_task` submissions with the same
tracking code within the same wall-clock second receive the *same* task id
(`int(time.time())` is second-granular and not strictly monotonic), and the
second submission overwrites the first in the task index, which still holds
a single entry. -/
theorem C9_counterexample :
    (addTask ⟨[], 0, []⟩ (s2l ("REQ-1")) 1700000000).1
      = (addTask (addTask ⟨[], 0, []⟩ (s2l ("REQ-1")) 1700000000).2
          (s2l ("REQ-1")) 1700000000).1
    ∧ (addTask (addTask ⟨[], 0, []⟩ (s2l ("REQ-1")) 1700000000).2
        (s2l ("REQ-1")) 1700000000).2.tasks.length = 1 := by
  refine ⟨by decide, by decide⟩

/-- C9 amended: two task ids collide exactly when both the tracking code and
the integer wall-clock second coincide; the time component is second-granular
wall-clock time, not a strictly monotonic counter, so distinct submissions
sharing a tracking code within one second receive the same id (and the later
one overwrites the earlier in the task index). -/
theorem C9_amended_id_collision (r1 : List Char) (t1 : Nat) (r2 : List Char) (t2 : Nat) :
    mkTaskId r1 t1 = mkTaskId r2 t2 ↔ (r1 = r2 ∧ t1 = t2) := by
  constructor
  · intro h
    unfold mkTaskId at h
    have h2 : r1 ++ '_' :: natToDec t1 = r2 ++ '_' :: natToDec t2 :=
      List.append_right_injective (s2l ("pdf_task_")) h
    have h3 : r1.reverse ++ [] = r1.reverse := by simp
    have hrev := congrArg List.reverse h2
    simp only [List.reverse_append, List.reverse_cons] at hrev
    rw [List.append_assoc, List.append_assoc] at hrev
    simp only [List.singleton_append] at hrev
    obtain ⟨hd, hr⟩ := split_at_marker (natToDec t1).reverse r1.reverse (natToDec t2).reverse
      r2.reverse
      (fun hc => natToDecF_no_underscore t1 t1 '_' (List.mem_reverse.mp hc) rfl)
      (fun hc => natToDecF_no_underscore t2 t2 '_' (List.mem_reverse.mp hc) rfl)
      hrev
    refine ⟨List.reverse_injective hr, natToDec_inj t1 t2 (List.reverse_injective hd)⟩
  · intro ⟨h1, h2⟩
    rw [h1, h2]

theorem avail_ne_true_none (fm : FontMgr) (x : List Char) :
    isFontAvailable fm x ≠ (true, none) := by
  intro hcon
  rw [isFontAvailable] at hcon
  by_cases he : x.isEmpty
  · simp [he] at hcon
  · simp only [he, if_neg] at hcon
    rcases hr : fm.registeredFonts.find?
        (fun r => normalizeFontName r = normalizeFontName x) with _ | r
    · rcases hf : fm.fontFiles.find? (fun f => isFontFile f
          && (normalizeFontName (fontNameFromFile f) = normalizeFontName x : Bool)) with _ | f
      · simp [hr, hf] at hcon
      · simp [hr, hf] at hcon
    · simp [hr] at hcon

theorem avail_match (fm : FontMgr) (x m : List Char)
    (h : isFontAvailable fm x = (true, some m)) :
    m ∈ fm.registeredFonts ∨ (m ∈ fm.fontFiles ∧ isFontFile m = true) := by
  rw [isFontAvailable] at h
  by_cases he : x.isEmpty
  · simp [he] at h
  · simp only [he, if_neg] at h
    rcases hr : fm.registeredFonts.find?
        (fun r => normalizeFontName r = normalizeFontName x) with _ | r
    · rcases hf : fm.fontFiles.find? (fun f => isFontFile f
          && (normalizeFontName (fontNameFromFile f) = normalizeFontName x : Bool)) with _ | f
      · simp [hr, hf] at h
      · simp only [hr, hf] at h
        have hfm : f = m := by
          have := h
          simp at this
          exact this
        subst hfm
        have hmem := List.mem_of_find?_eq_some hf
        have hpred := List.find?_some hf
        rw [Bool.and_eq_true] at hpred
        exact Or.inr ⟨hmem, hpred.1⟩
    · simp only [hr] at h
      have hrm : r = m := by
        have := h
        simp at this
        exact this
      subst hrm
      exact Or.inl (List.mem_of_find?_eq_some hr)

theorem isFontFile_nil : isFontFile [] = false := by decide

theorem loadable_of_avail (fm : FontMgr)
    (h1 : ∀ f ∈ fm.fontFiles, isFontFile f = true → fontNameFromFile f ∈ fm.registeredFonts)
    (h2 : ∀ r ∈ fm.registeredFonts, fontNameFromFile r = r)
    (h3 : [] ∉ fm.registeredFonts)
    (x m : List Char) (h : isFontAvailable fm x = (true, some m)) :
    m.isEmpty = false ∧ fontNameFromFile m ∈ fm.registeredFonts := by
  rcases avail_match fm x m h with hreg | ⟨hfile, hff⟩
  · have hne : m ≠ [] := by
      intro hcon
      rw [hcon] at hreg
      exact h3 hreg
    refine ⟨by simpa [List.isEmpty_iff] using hne, ?_⟩
    rw [h2 m hreg]
    exact hreg
  · have hne : m ≠ [] := by
      intro hcon
      rw [hcon, isFontFile_nil] at hff
      exact absurd hff (by decide)
    exact ⟨by simpa [List.isEmpty_iff] using hne, h1 m hfile hff⟩

theorem loadable_resolveFallbacks (fm : FontMgr)
    (h1 : ∀ f ∈ fm.fontFiles, isFontFile f = true → fontNameFromFile f ∈ fm.registeredFonts)
    (h2 : ∀ r ∈ fm.registeredFonts, fontNameFromFile r = r)
    (h3 : [] ∉ fm.registeredFonts) :
    ∀ l : List (List Char), loadableFont fm (resolveFallbacks fm l) := by
  intro l
  induction l with
  | nil =>
    right
    simp [resolveFallbacks, builtinPdfFonts]
  | cons fb rest ih =>
    rcases havail : isFontAvailable fm fb with ⟨av, mo⟩
    cases av with
    | true =>
      cases mo with
      | none => exact absurd havail (avail_ne_true_none fm fb)
      | some m =>
        obtain ⟨hne, hmem⟩ := loadable_of_avail fm h1 h2 h3 fb m havail
        simp only [resolveFallbacks, havail, hne]
        left
        simpa [hne] using hmem
    | false =>
      simpa [resolveFallbacks, havail] using ih

/-- Counterexample to C4 as stated: a state in which the font file
`Vazir.ttf` is present in the font directory but its registration failed
(the scanner logs and skips such files), so the registered set is empty.
`get_font_for_pdf("Vazir")` matches the file and returns the name `Vazir`,
which is not registered with the PDF backend and is not a built-in — an
unloadable resource. -/
theorem C4_counterexample :
    getFontForPdf ⟨[], [s2l ("Vazir.ttf")]⟩ (s2l ("Vazir")) = s2l ("Vazir")
    ∧ ¬ loadableFont ⟨[], [s2l ("Vazir.ttf")]⟩
        (getFontForPdf ⟨[], [s2l ("Vazir.ttf")]⟩ (s2l ("Vazir"))) := by
  refine ⟨by decide, by decide⟩

/-- C4 amended: `get_font_for_pdf` is total — for every requested name,
including the empty string and unknown names, it returns a name (exact
canonical match first, else the first available Persian fallback family,
else the built-in Helvetica).  The returned name is loadable *provided* the
registry is consistent: every font file's canonical name is actually
registered (registration did not fail), registered names are stable under
re-canonicalization, and no registered name is empty.  Without those
provisos (e.g. a file whose registration failed) the returned name can be
unloadable. -/
theorem C4_amended_font_resolution (fm : FontMgr)
    (h1 : ∀ f ∈ fm.fontFiles, isFontFile f = true → fontNameFromFile f ∈ fm.registeredFonts)
    (h2 : ∀ r ∈ fm.registeredFonts, fontNameFromFile r = r)
    (h3 : [] ∉ fm.registeredFonts)
    (requested : List Char) :
    loadableFont fm (getFontForPdf fm requested) := by
  rcases havail : isFontAvailable fm requested with ⟨av, mo⟩
  cases av with
  | true =>
    cases mo with
    | none => exact absurd havail (avail_ne_true_none fm requested)
    | some m =>
      obtain ⟨hne, hmem⟩ := loadable_of_avail fm h1 h2 h3 requested m havail
      simp only [getFontForPdf, havail, hne]
      left
      simpa [hne] using hmem
  | false =>
    simp only [getFontForPdf, havail]
    exact loadable_resolveFallbacks fm h1 h2 h3 persianFallbacks

/-- Witness for C4 amended: a consistent registry (Vazir registered from
Vazir.ttf); resolving an unknown request yields a loadable name. -/
theorem C4_amended_font_resolution_witness :
    loadableFont ⟨[s2l ("Vazir")], [s2l ("Vazir.ttf")]⟩
      (getFontForPdf ⟨[s2l ("Vazir")], [s2l ("Vazir.ttf")]⟩ (s2l ("NoSuchFont"))) :=
  C4_amended_font_resolution ⟨[s2l ("Vazir")], [s2l ("Vazir.ttf")]⟩
    (by decide) (by decide) (by decide) (s2l ("NoSuchFont"))

theorem restoGo_sound (R : List (List Char × List Char)) :
    ∀ (ps : List GPlaceholder) (seen : List (List Char)),
      ∀ req ∈ restoGo R seen ps, ∃ p ∈ ps, ∃ v,
        lookupReplacement R p = some v ∧ req = GReq.replaceAllText v p.text := by
  intro ps
  induction ps with
  | nil => intro seen req hreq; simp [restoGo] at hreq
  | cons p rest ih =>
    intro seen req hreq
    rw [restoGo] at hreq
    split at hreq
    · obtain ⟨q, hq, hv⟩ := ih seen req hreq
      exact ⟨q, by simp [hq], hv⟩
    · rename_i v hlk
      split at hreq
      · obtain ⟨q, hq, hv⟩ := ih seen req hreq
        exact ⟨q, by simp [hq], hv⟩
      · rcases List.mem_cons.mp hreq with rfl | hmem
        · exact ⟨p, by simp, v, hlk, rfl⟩
        · obtain ⟨q, hq, hv⟩ := ih _ req hmem
          exact ⟨q, by simp [hq], hv⟩

theorem restoGo_ne_nil (R : List (List Char × List Char)) :
    ∀ ps : List GPlaceholder,
      (∃ p ∈ ps, (lookupReplacement R p).isSome = true) → restoGo R [] ps ≠ [] := by
  intro ps
  induction ps with
  | nil => intro h; simp at h
  | cons p rest ih =>
    intro h
    rw [restoGo]
    split
    · rename_i hlk
      apply ih
      obtain ⟨q, hq, hsome⟩ := h
      rcases List.mem_cons.mp hq with rfl | hmem
      · rw [hlk] at hsome; simp at hsome
      · exact ⟨q, hmem, hsome⟩
    · rename_i v hlk
      simp [List.contains]

theorem reps_nonempty_inv (ps : List GPlaceholder) (R : List (List Char × List Char))
    (h : createReplacementRequests ps R ≠ []) :
    ∃ p ∈ ps, (lookupReplacement R p).isSome = true := by
  by_contra hcon
  push_neg at hcon
  apply h
  rw [createReplacementRequests, List.filterMap_eq_nil_iff]
  intro p hp
  have := hcon p hp
  rcases hlk : lookupReplacement R p with _ | v
  · simp
  · rw [hlk] at this; simp at this

theorem resto_nonempty (ps : List GPlaceholder) (R : List (List Char × List Char))
    (h : createReplacementRequests ps R ≠ []) :
    createRestorationRequests ps R ≠ [] :=
  restoGo_ne_nil R ps (reps_nonempty_inv ps R h)

/-- C10: whenever `generate_pdf_with_replacements` has applied at least one
replacement to the shared template document (the replacement batch was
nonempty and its batch update succeeded), it issues a restoration batch
update — whose requests map each used replacement value back to its original
placeholder text — before returning: after the PDF export on the success
path, and before returning False on every error path. -/
theorem C10_restoration (ps : List GPlaceholder) (R : List (List Char × List Char))
    (fail : GFail) (hreps : createReplacementRequests ps R ≠ [])
    (h2 : fail ≠ GFail.atGetDocument) (h3 : fail ≠ GFail.atApplyReplacements) :
    (∀ req ∈ createRestorationRequests ps R, ∃ p ∈ ps, ∃ v,
        lookupReplacement R p = some v ∧ req = GReq.replaceAllText v p.text)
    ∧ GEvent.restorePlaceholders (createRestorationRequests ps R)
        ∈ (generatePdfWithReplacements ps R fail).2
    ∧ ((generatePdfWithReplacements ps R fail).1 = true →
        ∃ l1 l2, (generatePdfWithReplacements ps R fail).2
            = l1 ++ GEvent.exportPdf :: l2
          ∧ GEvent.restorePlaceholders (createRestorationRequests ps R) ∈ l2) := by
  have hsound := restoGo_sound R ps []
  have hresto : createRestorationRequests ps R ≠ [] := resto_nonempty ps R hreps
  have hrE : (createRestorationRequests ps R).isEmpty = false := by
    simpa [List.isEmpty_iff] using hresto
  have hrepsE : (createReplacementRequests ps R).isEmpty = false := by
    simpa [List.isEmpty_iff] using hreps
  refine ⟨hsound, ?_⟩
  cases fail with
  | noFailure =>
    have htrace : generatePdfWithReplacements ps R GFail.noFailure =
        (true, [GEvent.getDocument,
                GEvent.applyReplacements (createReplacementRequests ps R),
                GEvent.sleepBeforeExport, GEvent.exportPdf, GEvent.savePdf,
                GEvent.sleepBeforeRestore,
                GEvent.restorePlaceholders (createRestorationRequests ps R)]) := by
      simp [generatePdfWithReplacements, hrepsE, hrE]
    rw [htrace]
    refine ⟨by simp, ?_⟩
    intro _
    exact ⟨[GEvent.getDocument, GEvent.applyReplacements (createReplacementRequests ps R),
      GEvent.sleepBeforeExport],
      [GEvent.savePdf, GEvent.sleepBeforeRestore,
       GEvent.restorePlaceholders (createRestorationRequests ps R)], by simp, by simp⟩
  | atGetDocument => exact absurd rfl h2
  | atApplyReplacements => exact absurd rfl h3
  | atExportPdf =>
    simp [generatePdfWithReplacements, hrepsE, hrE]
  | atSavePdf =>
    simp [generatePdfWithReplacements, hrepsE, hrE]
  | atRestore =>
    simp [generatePdfWithReplacements, hrepsE, hrE]

/-- Witness for C10 at a one-placeholder document with a mapped value and no
faults: the restoration batch update appears in the call trace. -/
theorem C10_restoration_witness :
    GEvent.restorePlaceholders (createRestorationRequests
        [⟨s2l ("name"), phPat (s2l ("name"))⟩] [(s2l ("name"), s2l ("Ali"))])
      ∈ (generatePdfWithReplacements [⟨s2l ("name"), phPat (s2l ("name"))⟩]
          [(s2l ("name"), s2l ("Ali"))] GFail.noFailure).2 :=
  (C10_restoration [⟨s2l ("name"), phPat (s2l ("name"))⟩] [(s2l ("name"), s2l ("Ali"))]
    GFail.noFailure (by decide) (by decide) (by decide)).2.1

/-- Counterexample to C1 as stated: with the map
`a -> x, b -> (open)(open)a(close)(close)` (a replacement value may contain a
placeholder pattern) and a document whose sole paragraph is the `b` token,
the engine's output document contains an occurrence of the pattern of `a`,
which is a key of the map — not zero occurrences. -/
theorem C1_counterexample :
    occursIn (phPat (s2l ("a")))
      (docAllText (processDocxTemplate
        [(s2l ("a"), s2l ("x")), (s2l ("b"), phPat (s2l ("a")))]
        ⟨[[⟨phPat (s2l ("b")), noProps⟩]], [], []⟩)) = true
    ∧ (assocGet [(s2l ("a"), s2l ("x")), (s2l ("b"), phPat (s2l ("a")))]
        (s2l ("a"))).isSome = true := by
  refine ⟨by decide, by decide⟩

/-- C1 amended: for replacement maps whose keys and values are brace-free
(keys nonempty) and documents whose every paragraph text is a well-formed
interleaving of brace-free literals and placeholder tokens, processing the
document (a) replaces every paragraph pointwise, (b) leaves zero occurrences
of any mapped key's pattern in every processed paragraph, and (c) rewrites
each paragraph to the rendering of its segment view with exactly the mapped
tokens substituted by their values — so unmapped tokens survive verbatim. -/
theorem C1_amended_replacement_engine (R : List (List Char × List Char))
    (hR : ∀ kv ∈ R, braceFreeB kv.1 = true ∧ kv.1 ≠ [] ∧ braceFreeB kv.2 = true)
    (d : Doc) (segsOf : Para → List Seg)
    (hseg : ∀ p ∈ docParagraphs d,
      wfSegsB (segsOf p) = true ∧ paragraphText p = renderSegs (segsOf p)) :
    docParagraphs (processDocxTemplate R d)
        = (docParagraphs d).map (replacePlaceholdersInParagraph R)
    ∧ ∀ p ∈ docParagraphs d,
        (∀ kv ∈ R, occursIn (phPat kv.1)
          (paragraphText (replacePlaceholdersInParagraph R p)) = false)
        ∧ paragraphText (replacePlaceholdersInParagraph R p)
            = renderSegs (applySubsts R (segsOf p)) := by
  refine ⟨docParagraphs_processDocx R d, ?_⟩
  intro p hp
  obtain ⟨hwf, ht⟩ := hseg p hp
  obtain ⟨h1, h2⟩ := replaceParagraph_core R hR p (segsOf p) hwf ht
  exact ⟨h2, h1⟩

/-- Witness for C1 amended at the concrete two-paragraph document: the
processed body paragraph has no occurrence of the mapped `name` pattern and
equals the rendering of the substituted segments. -/
theorem C1_amended_replacement_engine_witness :
    occursIn (phPat (s2l ("name")))
      (paragraphText (replacePlaceholdersInParagraph wMapC1
        [⟨s2l ("Name: ") ++ phPat (s2l ("name")), noProps⟩])) = false
    ∧ paragraphText (replacePlaceholdersInParagraph wMapC1
        [⟨s2l ("Name: ") ++ phPat (s2l ("name")), noProps⟩])
      = renderSegs (applySubsts wMapC1
          (wSegsC1 [⟨s2l ("Name: ") ++ phPat (s2l ("name")), noProps⟩])) := by
  have h := (C1_amended_replacement_engine wMapC1 (by decide) wDocC1 wSegsC1 (by decide)).2
    [⟨s2l ("Name: ") ++ phPat (s2l ("name")), noProps⟩] (by decide)
  exact ⟨h.1 (s2l ("name"), s2l ("Ali")) (by decide), h.2⟩

/-- Counterexample to C5 as stated: the map `a -> a` has a replacement value
containing no placeholder substring at all, yet on the paragraph consisting
of the token whose name is itself the `a` token (nested braces), one engine
pass yields the `a` pattern and a second pass replaces it again — the engine
is not idempotent under the claim's proviso. -/
theorem C5_counterexample :
    findNames (s2l ("a")) = []
    ∧ processDocxTemplate [(s2l ("a"), s2l ("a"))]
        (processDocxTemplate [(s2l ("a"), s2l ("a"))]
          ⟨[[⟨phPat (phPat (s2l ("a"))), noProps⟩]], [], []⟩)
      ≠ processDocxTemplate [(s2l ("a"), s2l ("a"))]
          ⟨[[⟨phPat (phPat (s2l ("a"))), noProps⟩]], [], []⟩ := by
  refine ⟨by decide, by decide⟩

/-- C5 amended: under the same well-formedness proviso as the amended C1
(brace-free nonempty keys, brace-free values, paragraphs that are
interleavings of brace-free literals and tokens), the Replacement Engine is
idempotent: re-running it on its own output with the same map is a no-op. -/
theorem C5_amended_idempotent (R : List (List Char × List Char))
    (hR : ∀ kv ∈ R, braceFreeB kv.1 = true ∧ kv.1 ≠ [] ∧ braceFreeB kv.2 = true)
    (d : Doc) (segsOf : Para → List Seg)
    (hseg : ∀ p ∈ docParagraphs d,
      wfSegsB (segsOf p) = true ∧ paragraphText p = renderSegs (segsOf p)) :
    processDocxTemplate R (processDocxTemplate R d) = processDocxTemplate R d := by
  apply processDocx_idem_pointwise
  intro p hp
  obtain ⟨hwf, ht⟩ := hseg p hp
  exact replaceParagraph_untouched R _
    (processed_no_mapped R hR p (segsOf p) hwf ht)

/-- Witness for C5 amended at the concrete two-paragraph document. -/
theorem C5_amended_idempotent_witness :
    processDocxTemplate wMapC1 (processDocxTemplate wMapC1 wDocC1)
      = processDocxTemplate wMapC1 wDocC1 :=
  C5_amended_idempotent wMapC1 (by decide) wDocC1 wSegsC1 (by decide)
